import Mathlib

/- Verification of the crypto-otp HOTP/TOTP library.

The TypeScript sources are embedded shallowly:

* pure functions of the `Otp` and `Hotp` classes become Lean functions with
  the same names;
* JavaScript numbers holding counters, windows and deltas become `Int`
  (token digit counts, small positive constants, become `Nat`);
* Node `Buffer`s become `List Nat`, every entry a byte value below 256;
* optional record fields with defaults become `Option` fields, the default
  applied with `Option.getD` exactly where the source destructures;
* the external HMAC primitive (`Hmac.digest` of the crypto-key package) is a
  parameter of every pipeline function; a concrete model of HMAC-SHA-1
  (FIPS 180-1 / RFC 2104) instantiates it for concrete runs;
* the external Node `Buffer` codecs and the external Base32 codec
  (crypto-encoder, RFC 3548 variant) are modelled from their documented
  behaviour, notably Node's lenient hex parsing and the high-bit masking of
  Node's ascii codec (both confirmed by the repository's test expectations);
* a thrown `Exception` becomes `Except.error`.
-/

/-- JS decimal digit characters: `digitChar10 d` renders digit `d`. -/
def digitChar10 (d : Nat) : Char := Char.ofNat (48 + d)

/-- Lowercase hexadecimal digit characters, as produced by JS
`Number.prototype.toString(16)` and Node `buf.toString('hex')`. -/
def hexDigitChar (d : Nat) : Char :=
  if d < 10 then Char.ofNat (48 + d) else Char.ofNat (87 + d)

/-- Fuel-driven most-significant-first base-`b` digit expansion (the fuel
makes it structurally recursive, hence kernel-computable). -/
def digitsBase (b : Nat) : Nat → Nat → List Nat → List Nat
  | 0, _, acc => acc
  | fuel + 1, n, acc => if n < b then n :: acc else digitsBase b fuel (n / b) (n % b :: acc)

/-- JS `String(n)` for a natural number. -/
def natToString (n : Nat) : String := String.mk ((digitsBase 10 (n + 1) n []).map digitChar10)

/-- JS `n.toString(16)` for a natural number. -/
def natToHexString (n : Nat) : String := String.mk ((digitsBase 16 (n + 1) n []).map hexDigitChar)

/-- JS `String.prototype.padStart(len, ch)` with a one-character pad string
(the behaviour of the external math-utils `padStart` helper). -/
def padStartStr (s : String) (len : Nat) (ch : Char) : String :=
  if len ≤ s.length then s else String.mk (List.replicate (len - s.length) ch ++ s.data)

/-- Hexadecimal value of a character, either case (Node hex parsing). -/
def hexVal (c : Char) : Option Nat :=
  let n := c.toNat
  if 48 ≤ n ∧ n ≤ 57 then some (n - 48)
  else if 97 ≤ n ∧ n ≤ 102 then some (n - 87)
  else if 65 ≤ n ∧ n ≤ 70 then some (n - 55)
  else none

/-- Node `Buffer.from(s, 'hex')`: decodes complete byte pairs from the left
and stops silently at the first invalid or incomplete pair. -/
def hexDecodeList : List Char → List Nat
  | c1 :: c2 :: rest =>
    match hexVal c1, hexVal c2 with
    | some h, some l => (16 * h + l) :: hexDecodeList rest
    | _, _ => []
  | _ => []

/-- Node `Buffer.from(s, 'hex')` on a string. -/
def hexDecodeStr (s : String) : List Nat := hexDecodeList s.data

/-- Node `buf.toString('hex')`, two lowercase digits per byte. -/
def hexEncodeList : List Nat → List Char
  | [] => []
  | b :: rest => hexDigitChar (b / 16) :: hexDigitChar (b % 16) :: hexEncodeList rest

/-- Node `buf.toString('hex')` producing a string. -/
def hexEncodeStr (bytes : List Nat) : String := String.mk (hexEncodeList bytes)

/-- Node `Buffer.from(s, 'ascii')`: keeps the low 8 bits of each char code. -/
def asciiDecodeStr (s : String) : List Nat := s.data.map (fun c => c.toNat % 256)

/-- Node `buf.toString('ascii')`: masks the high bit of every byte. -/
def asciiEncodeStr (bytes : List Nat) : String :=
  String.mk (bytes.map (fun b => Char.ofNat (b % 128)))

/-- Base64url alphabet character of a 6-bit value. -/
def b64Char (v : Nat) : Char :=
  if v < 26 then Char.ofNat (65 + v)
  else if v < 52 then Char.ofNat (97 + (v - 26))
  else if v < 62 then Char.ofNat (48 + (v - 52))
  else if v = 62 then '-' else '_'

/-- Base64url value of a character, `none` outside the alphabet. -/
def b64Val (c : Char) : Option Nat :=
  let n := c.toNat
  if 65 ≤ n ∧ n ≤ 90 then some (n - 65)
  else if 97 ≤ n ∧ n ≤ 122 then some (n - 71)
  else if 48 ≤ n ∧ n ≤ 57 then some (n + 4)
  else if n = 45 then some 62
  else if n = 95 then some 63
  else none

/-- Node `buf.toString('base64url')` (unpadded), three bytes to four chars. -/
def b64EncodeBytes : List Nat → List Char
  | a :: b :: c :: rest =>
      b64Char (a / 4) :: b64Char (a % 4 * 16 + b / 16) ::
      b64Char (b % 16 * 4 + c / 64) :: b64Char (c % 64) :: b64EncodeBytes rest
  | [a, b] => [b64Char (a / 4), b64Char (a % 4 * 16 + b / 16), b64Char (b % 16 * 4)]
  | [a] => [b64Char (a / 4), b64Char (a % 4 * 16)]
  | [] => []

/-- Base64 value groups back to bytes, four 6-bit values to three bytes. -/
def b64DecodeVals : List Nat → List Nat
  | v1 :: v2 :: v3 :: v4 :: rest =>
      (v1 * 4 + v2 / 16) :: (v2 % 16 * 16 + v3 / 4) :: (v3 % 4 * 64 + v4) :: b64DecodeVals rest
  | [v1, v2, v3] => [v1 * 4 + v2 / 16, v2 % 16 * 16 + v3 / 4]
  | [v1, v2] => [v1 * 4 + v2 / 16]
  | _ => []

/-- Node `Buffer.from(s, 'base64url')`: non-alphabet characters are skipped. -/
def base64urlDecodeStr (s : String) : List Nat := b64DecodeVals (s.data.filterMap b64Val)

/-- Node `buf.toString('base64url')` producing a string. -/
def base64urlEncodeStr (bytes : List Nat) : String := String.mk (b64EncodeBytes bytes)

/-- RFC 3548 base32 alphabet character of a 5-bit value. -/
def b32Char (v : Nat) : Char := if v < 26 then Char.ofNat (65 + v) else Char.ofNat (24 + v)

/-- RFC 3548 base32 value of a character, `none` outside the alphabet. -/
def b32Val (c : Char) : Option Nat :=
  let n := c.toNat
  if 65 ≤ n ∧ n ≤ 90 then some (n - 65)
  else if 50 ≤ n ∧ n ≤ 55 then some (n - 24)
  else none

/-- Model of the external RFC 3548 `Base32.encode`: five bytes to eight
characters, the final partial group padded with `=`. -/
def base32EncodeChars : List Nat → List Char
  | b0 :: b1 :: b2 :: b3 :: b4 :: rest =>
      b32Char (b0 / 8) :: b32Char (b0 % 8 * 4 + b1 / 64) :: b32Char (b1 / 2 % 32) ::
      b32Char (b1 % 2 * 16 + b2 / 16) :: b32Char (b2 % 16 * 2 + b3 / 128) ::
      b32Char (b3 / 4 % 32) :: b32Char (b3 % 4 * 8 + b4 / 32) :: b32Char (b4 % 32) ::
      base32EncodeChars rest
  | [b0, b1, b2, b3] =>
      [b32Char (b0 / 8), b32Char (b0 % 8 * 4 + b1 / 64), b32Char (b1 / 2 % 32),
       b32Char (b1 % 2 * 16 + b2 / 16), b32Char (b2 % 16 * 2 + b3 / 128),
       b32Char (b3 / 4 % 32), b32Char (b3 % 4 * 8), '=']
  | [b0, b1, b2] =>
      [b32Char (b0 / 8), b32Char (b0 % 8 * 4 + b1 / 64), b32Char (b1 / 2 % 32),
       b32Char (b1 % 2 * 16 + b2 / 16), b32Char (b2 % 16 * 2), '=', '=', '=']
  | [b0, b1] =>
      [b32Char (b0 / 8), b32Char (b0 % 8 * 4 + b1 / 64), b32Char (b1 / 2 % 32),
       b32Char (b1 % 2 * 16), '=', '=', '=', '=']
  | [b0] => [b32Char (b0 / 8), b32Char (b0 % 8 * 4), '=', '=', '=', '=', '=', '=']
  | [] => []

/-- Base32 value groups back to bytes, eight 5-bit values to five bytes. -/
def b32DecodeVals : List Nat → List Nat
  | v0 :: v1 :: v2 :: v3 :: v4 :: v5 :: v6 :: v7 :: rest =>
      (v0 * 8 + v1 / 4) :: (v1 % 4 * 64 + v2 * 2 + v3 / 16) :: (v3 % 16 * 16 + v4 / 2) ::
      (v4 % 2 * 128 + v5 * 4 + v6 / 8) :: (v6 % 8 * 32 + v7) :: b32DecodeVals rest
  | [v0, v1, v2, v3, v4, v5, v6] =>
      [v0 * 8 + v1 / 4, v1 % 4 * 64 + v2 * 2 + v3 / 16, v3 % 16 * 16 + v4 / 2,
       v4 % 2 * 128 + v5 * 4 + v6 / 8]
  | [v0, v1, v2, v3, v4] =>
      [v0 * 8 + v1 / 4, v1 % 4 * 64 + v2 * 2 + v3 / 16, v3 % 16 * 16 + v4 / 2]
  | [v0, v1, v2, v3] => [v0 * 8 + v1 / 4, v1 % 4 * 64 + v2 * 2 + v3 / 16]
  | [v0, v1] => [v0 * 8 + v1 / 4]
  | _ => []

/-- Model of the external RFC 3548 `Base32.decode`: padding and any
non-alphabet character is skipped, value characters are regrouped. -/
def base32DecodeStr (s : String) : List Nat := b32DecodeVals (s.data.filterMap b32Val)

/-- Model of the external RFC 3548 `Base32.encode` on a string. -/
def base32EncodeStr (bytes : List Nat) : String := String.mk (base32EncodeChars bytes)

namespace OTP

/-- The supported hash algorithm identifiers (the source's `Algo.Hash`). -/
inductive Hash
  | sha1
  | sha256
  | sha384
  | sha512
deriving DecidableEq, Repr

/-- The supported secret key encodings (the source's `OTP.Encoding`). -/
inductive Encoding
  | ascii
  | hex
  | base64url
  | base32
deriving DecidableEq, Repr

/-- The source's `OTP.Secret`: key text plus optional encoding/algorithm. -/
structure Secret where
  key : String
  encoding : Option OTP.Encoding
  algorithm : Option OTP.Hash
deriving DecidableEq, Repr

/-- The source's `OTP.HOTP.GetTokenOptions`. -/
structure GetTokenOptions where
  secret : OTP.Secret
  digits : Option Nat
  counter : Option Int
deriving DecidableEq, Repr

/-- The source's `OTP.HOTP.GetDeltaOptions`. -/
structure GetDeltaOptions where
  secret : OTP.Secret
  digits : Option Nat
  counter : Option Int
  window : Option Int
  token : String
deriving DecidableEq, Repr

/-- The source's `OTP.GetSecretsOptions`. -/
structure GetSecretsOptions where
  secret : OTP.Secret
deriving DecidableEq, Repr

/-- The source's `OTP.Secrets`: the key in all four encodings. -/
structure Secrets where
  ascii : String
  hex : String
  base64url : String
  base32 : String
deriving DecidableEq, Repr

/-- The delta search throws this `Exception` (`ErrorCode.EMPTY_VALUE`) when
called with an empty token. -/
inductive OtpError
  | missingToken
deriving DecidableEq, Repr

end OTP

/-- The external HMAC primitive `Hmac.digest(message, key, algorithm)` as a
parameter: the algorithm, the message bytes and the key bytes give the
digest bytes. -/
abbrev HmacImpl := OTP.Hash → List Nat → List Nat → List Nat

namespace Otp

/-- Static default `Otp.Digits`. -/
def Digits : Nat := 6

/-- Static default `Otp.Encoding` (`'hex'`). -/
def Encoding : OTP.Encoding := .hex

/-- Static default `Otp.Algorithm` (`'SHA-1'`). -/
def Algorithm : OTP.Hash := .sha1

/-- Buffer read `digest[i]`, `undefined` coalesced to 0 by the source. -/
def byteAt (digest : List Nat) (i : Nat) : Nat := (digest[i]?).getD 0

/-- The source's `Otp.DigestToToken`: RFC 4226 dynamic truncation. -/
def DigestToToken (digest : List Nat) (digits : Nat) : String :=
  let offset := (digest.getLast?.getD 0) &&& 0xf
  let binary :=
    ((byteAt digest offset &&& 0x7f) <<< 24) |||
    ((byteAt digest (offset + 1) &&& 0xff) <<< 16) |||
    ((byteAt digest (offset + 2) &&& 0xff) <<< 8) |||
    (byteAt digest (offset + 3) &&& 0xff)
  let token := binary % 10 ^ digits
  padStartStr (natToString token) digits '0'

/-- Node `Buffer.from(secret, encoding)` for the three Node encodings; the
source never reaches the `base32` arm (it is guarded before the call). -/
def bufferFrom (secret : String) (encoding : OTP.Encoding) : List Nat :=
  match encoding with
  | .ascii => asciiDecodeStr secret
  | .hex => hexDecodeStr secret
  | .base64url => base64urlDecodeStr secret
  | .base32 => []

/-- Node `buf.toString(encoding)` extended with the external Base32 codec. -/
def bufferToString (bytes : List Nat) (encoding : OTP.Encoding) : String :=
  match encoding with
  | .ascii => asciiEncodeStr bytes
  | .hex => hexEncodeStr bytes
  | .base64url => base64urlEncodeStr bytes
  | .base32 => base32EncodeStr bytes

/-- The source's `Otp.HmacKey`: decode the secret under its encoding and
render the bytes as a hex string. -/
def HmacKey (secret : String) (encoding : OTP.Encoding) : String :=
  if encoding ≠ .base32 then hexEncodeStr (bufferFrom secret encoding)
  else hexEncodeStr (base32DecodeStr secret)

/-- The source's `Otp.createDigest`:
`Hmac.digest(Buffer.from(counter,'hex'), Buffer.from(hmacKey,'hex'), algorithm)`. -/
def createDigest (hmac : HmacImpl) (algorithm : OTP.Hash) (hmacKey : String) (counter : String) :
    List Nat :=
  hmac algorithm (hexDecodeStr counter) (hexDecodeStr hmacKey)

/-- Decoding a secret under its declared encoding, the convention `HmacKey`
implements (hex rendering omitted). -/
def decodeSecret (secret : String) (encoding : OTP.Encoding) : List Nat :=
  if encoding ≠ .base32 then bufferFrom secret encoding else base32DecodeStr secret

/-- One entry of the source's `Otp.GetSecrets` result (the body of its map
over the four encodings). -/
def secretsEntry (key : String) (encoding : OTP.Encoding) (enc : OTP.Encoding) : String :=
  if enc = encoding then key
  else if enc = .base32 then base32EncodeStr (bufferFrom key encoding)
  else if encoding = .base32 then bufferToString (base32DecodeStr key) enc
  else bufferToString (bufferFrom key encoding) enc

/-- The source's `Otp.GetSecrets`. -/
def GetSecrets (options : OTP.GetSecretsOptions) : OTP.Secrets :=
  let encoding := options.secret.encoding.getD Otp.Encoding
  ⟨secretsEntry options.secret.key encoding .ascii,
   secretsEntry options.secret.key encoding .hex,
   secretsEntry options.secret.key encoding .base64url,
   secretsEntry options.secret.key encoding .base32⟩

end Otp

namespace Hotp

/-- The source's `Hotp.Counter`: `padStart(counter.toString(16), 16, '0')`. -/
def Counter (counter : Int) : String :=
  padStartStr
    (if counter < 0 then "-" ++ natToHexString counter.natAbs else natToHexString counter.toNat)
    16 '0'

/-- The source's `Hotp.Digest`. -/
def Digest (hmac : HmacImpl) (options : OTP.GetTokenOptions) : List Nat :=
  let counter := options.counter.getD 0
  let algorithm := options.secret.algorithm.getD Otp.Algorithm
  let encoding := options.secret.encoding.getD Otp.Encoding
  Otp.createDigest hmac algorithm (Otp.HmacKey options.secret.key encoding) (Counter counter)

/-- The source's `Hotp.GetToken`. -/
def GetToken (hmac : HmacImpl) (options : OTP.GetTokenOptions) : String :=
  let digits := options.digits.getD Otp.Digits
  Otp.DigestToToken (Digest hmac options) digits

/-- First-match ascending scan: `scanFirst p i n` checks `i, i+1, ...,
i+n-1` in order and returns the first accepted value — the source's `for`
loop from `_counter` to `_counter + _window` inclusive. -/
def scanFirst (p : Int → Bool) : Int → Nat → Option Int
  | _, 0 => none
  | i, n + 1 => if p i then some i else scanFirst p (i + 1) n

/-- The source's `Hotp.GetDelta`.  The `timingSafeEqual` comparison of the
two equal-length candidate/supplied token buffers is modelled as string
equality. -/
def GetDelta (hmac : HmacImpl) (options : OTP.GetDeltaOptions) (twoSidedWindow : Bool) :
    Except OTP.OtpError (Option Int) :=
  if options.token = "" then .error .missingToken
  else
    let counter := options.counter.getD 0
    let window := options.window.getD 0
    let digits := options.digits.getD Otp.Digits
    let _counter := if !twoSidedWindow then counter else counter - window
    let _window := if !twoSidedWindow then window else window * 2
    if options.token.length ≠ digits then .ok none
    else
      match scanFirst (fun i => GetToken hmac ⟨options.secret, some digits, some i⟩ == options.token)
          _counter (_window + 1).toNat with
      | some i =>
        let delta := i - _counter
        .ok (some (if !twoSidedWindow then delta else delta - window))
      | none => .ok none

/-- The source's `Hotp.Verify`: `GetDelta(options) != null`, any thrown
error propagating. -/
def Verify (hmac : HmacImpl) (options : OTP.GetDeltaOptions) : Except OTP.OtpError Bool :=
  match GetDelta hmac options false with
  | .error e => .error e
  | .ok delta => .ok delta.isSome

/-- State-passing form of `GetDelta` returning the options record as it
stands after the call: the source reads `options` only by destructuring and
never assigns to it or to its fields (unlike the legacy `otp.ts`, whose
loop executed `options.counter = i`), so the record after the call is the
record passed in. -/
def GetDeltaSt (hmac : HmacImpl) (options : OTP.GetDeltaOptions) (twoSidedWindow : Bool) :
    Except OTP.OtpError (Option Int) × OTP.GetDeltaOptions :=
  (GetDelta hmac options twoSidedWindow, options)

/-- The candidate token the delta scan generates at counter `i`: the
source's `Hotp.GetToken({ ...rest, digits, counter: i })`. -/
def candidate (hmac : HmacImpl) (s : OTP.Secret) (digits : Nat) (i : Int) : String :=
  GetToken hmac ⟨s, some digits, some i⟩

end Hotp

/-- Truncation to a 32-bit word. -/
def w32 (n : Nat) : Nat := n % 4294967296

/-- 32-bit left rotation. -/
def rotl (n k : Nat) : Nat := w32 (n <<< k ||| n >>> (32 - k))

/-- Big-endian byte rendering: `beBytes k n` is the `k`-byte big-endian
encoding of `n % 256^k`, most significant byte first. -/
def beBytes : Nat → Nat → List Nat
  | 0, _ => []
  | k + 1, n => beBytes k (n / 256) ++ [n % 256]

/-- FIPS 180-1 padding: append `0x80`, zeros, and the 64-bit big-endian bit
length, reaching a multiple of 64 bytes. -/
def sha1Pad (ms : List Nat) : List Nat :=
  ms ++ 0x80 :: List.replicate ((64 - (ms.length + 9) % 64) % 64) 0 ++ beBytes 8 (ms.length * 8)

/-- Split into 64-byte blocks (fuel-driven for structural recursion). -/
def toBlocks : Nat → List Nat → List (List Nat)
  | 0, _ => []
  | _, [] => []
  | fuel + 1, ms => ms.take 64 :: toBlocks fuel (ms.drop 64)

/-- Four big-endian bytes to one 32-bit word, repeatedly. -/
def beWords : List Nat → List Nat
  | b0 :: b1 :: b2 :: b3 :: rest => (b0 * 16777216 + b1 * 65536 + b2 * 256 + b3) :: beWords rest
  | _ => []

/-- SHA-1 message-schedule extension, most recent word first. -/
def sha1Extend (r : List Nat) : Nat → List Nat
  | 0 => r
  | n + 1 =>
    sha1Extend (rotl ((r.getD 2 0) ^^^ (r.getD 7 0) ^^^ (r.getD 13 0) ^^^ (r.getD 15 0)) 1 :: r) n

/-- SHA-1 round function. -/
def sha1F (i b c d : Nat) : Nat :=
  if i < 20 then b &&& c ||| ((b ^^^ 0xffffffff) &&& d)
  else if i < 40 then b ^^^ c ^^^ d
  else if i < 60 then b &&& c ||| b &&& d ||| c &&& d
  else b ^^^ c ^^^ d

/-- SHA-1 round constants. -/
def sha1K (i : Nat) : Nat :=
  if i < 20 then 0x5a827999
  else if i < 40 then 0x6ed9eba1
  else if i < 60 then 0x8f1bbcdc
  else 0xca62c1d6

/-- The 80 SHA-1 rounds over the schedule words. -/
def sha1Rounds : List Nat → Nat → Nat × Nat × Nat × Nat × Nat → Nat × Nat × Nat × Nat × Nat
  | [], _, st => st
  | w :: ws, i, (a, b, c, d, e) =>
    sha1Rounds ws (i + 1) (w32 (rotl a 5 + sha1F i b c d + e + sha1K i + w), a, rotl b 30, c, d)

/-- One SHA-1 compression step. -/
def sha1Compress (h : Nat × Nat × Nat × Nat × Nat) (block : List Nat) :
    Nat × Nat × Nat × Nat × Nat :=
  let ws := (sha1Extend (beWords block).reverse 64).reverse
  let (h0, h1, h2, h3, h4) := h
  let (a, b, c, d, e) := sha1Rounds ws 0 (h0, h1, h2, h3, h4)
  (w32 (h0 + a), w32 (h1 + b), w32 (h2 + c), w32 (h3 + d), w32 (h4 + e))

/-- Model of the external SHA-1 hash (FIPS 180-1): message bytes to the 20
digest bytes. -/
def sha1 (ms : List Nat) : List Nat :=
  let padded := sha1Pad ms
  let st :=
    (toBlocks padded.length padded).foldl sha1Compress
      (0x67452301, 0xefcdab89, 0x98badcfe, 0x10325476, 0xc3d2e1f0)
  beBytes 4 st.1 ++ beBytes 4 st.2.1 ++ beBytes 4 st.2.2.1 ++ beBytes 4 st.2.2.2.1 ++
    beBytes 4 st.2.2.2.2

/-- Model of the external `Hmac.digest` for SHA-1 (RFC 2104). -/
def hmacSha1 (message key : List Nat) : List Nat :=
  let k0 := if 64 < key.length then sha1 key else key
  let k1 := k0 ++ List.replicate (64 - k0.length) 0
  sha1 ((k1.map (fun b => b ^^^ 0x5c)) ++ sha1 ((k1.map (fun b => b ^^^ 0x36)) ++ message))

/-- Concrete instance of the HMAC parameter: every concrete run in this
development uses the default SHA-1 algorithm, so the algorithm argument
selects the modelled HMAC-SHA-1. -/
def hmacNode : HmacImpl := fun _ message key => hmacSha1 message key

/-- Mathematical most-significant-first base-`b` digits, the spec-side
companion of the fuel-driven `digitsBase`. -/
def digitsRec (b n : Nat) : List Nat :=
  if n < b ∨ b ≤ 1 then [n] else digitsRec b (n / b) ++ [n % b]
termination_by n
decreasing_by exact Nat.div_lt_self (by omega) (by omega)

/-- Exactly `w` most-significant-first base-16 digits of `n % 16 ^ w`. -/
def hexFixed : Nat → Nat → List Nat
  | 0, _ => []
  | w + 1, n => hexFixed w (n / 16) ++ [n % 16]

/-- Pairs of hex digit values to bytes. -/
def hexPairsToBytes : List Nat → List Nat
  | h :: l :: rest => (16 * h + l) :: hexPairsToBytes rest
  | _ => []

theorem digitsBase_eq_digitsRec (b : Nat) (hb : 2 ≤ b) :
    ∀ (fuel n : Nat) (acc : List Nat), n < b ^ (fuel + 1) →
      digitsBase b (fuel + 1) n acc = digitsRec b n ++ acc := by
  intro fuel
  induction fuel with
  | zero =>
    intro n acc hn
    rw [pow_one] at hn
    rw [digitsRec]
    simp [digitsBase, hn]
  | succ fuel ih =>
    intro n acc hn
    by_cases h : n < b
    · rw [digitsRec]
      simp [digitsBase, h]
    · have hdiv : n / b < b ^ (fuel + 1) := by
        rw [Nat.div_lt_iff_lt_mul (by omega : 0 < b)]
        calc n < b ^ (fuel + 1 + 1) := hn
        _ = b ^ (fuel + 1) * b := by rw [pow_succ]
      have hstep : digitsBase b (fuel + 1 + 1) n acc
          = digitsBase b (fuel + 1) (n / b) (n % b :: acc) := by
        simp [digitsBase, h]
      have hrec : digitsRec b n = digitsRec b (n / b) ++ [n % b] := by
        rw [digitsRec]
        simp [h, show ¬ b ≤ 1 by omega]
      rw [hstep, ih (n / b) (n % b :: acc) hdiv, hrec]
      simp

theorem digitsRec_length_le (b : Nat) (hb : 2 ≤ b) :
    ∀ (d n : Nat), n < b ^ (d + 1) → (digitsRec b n).length ≤ d + 1 := by
  intro d
  induction d with
  | zero =>
    intro n hn
    rw [pow_one] at hn
    rw [digitsRec]
    simp [hn]
  | succ d ih =>
    intro n hn
    by_cases h : n < b
    · rw [digitsRec]; simp [h]
    · rw [digitsRec]
      simp only [h, show ¬ b ≤ 1 by omega, or_self, if_false, List.length_append,
        List.length_singleton]
      have hdiv : n / b < b ^ (d + 1) := by
        rw [Nat.div_lt_iff_lt_mul (by omega : 0 < b)]
        calc n < b ^ (d + 1 + 1) := hn
        _ = b ^ (d + 1) * b := by rw [pow_succ]
      have := ih (n / b) hdiv
      omega

theorem digitsRec_lt (b : Nat) (hb : 2 ≤ b) :
    ∀ (n : Nat), ∀ x ∈ digitsRec b n, x < b := by
  intro n
  induction n using Nat.strong_induction_on with
  | _ n ih =>
    intro x hx
    rw [digitsRec] at hx
    by_cases h : n < b
    · simp [h] at hx
      omega
    · simp only [h, show ¬ b ≤ 1 by omega, or_self, if_false, List.mem_append,
        List.mem_singleton] at hx
      rcases hx with hx | hx
      · exact ih (n / b) (Nat.div_lt_self (by omega) (by omega)) x hx
      · subst hx
        exact Nat.mod_lt _ (by omega)

theorem digitsRec_ne_nil (b n : Nat) : digitsRec b n ≠ [] := by
  rw [digitsRec]
  split
  · simp
  · simp

theorem natToString_eq (n : Nat) :
    natToString n = String.mk ((digitsRec 10 n).map digitChar10) := by
  have h10 : n < 10 ^ (n + 1) := by
    have h1 : n < 2 ^ n := Nat.lt_two_pow n
    have h2 : 2 ^ n ≤ 10 ^ n := Nat.pow_le_pow_left (by omega) n
    have h3 : 10 ^ n ≤ 10 ^ (n + 1) := Nat.pow_le_pow_right (by omega) (by omega)
    omega
  unfold natToString
  rw [digitsBase_eq_digitsRec 10 (by omega) n n [] h10, List.append_nil]

theorem natToHexString_eq (n : Nat) :
    natToHexString n = String.mk ((digitsRec 16 n).map hexDigitChar) := by
  have h16 : n < 16 ^ (n + 1) := by
    have h1 : n < 2 ^ n := Nat.lt_two_pow n
    have h2 : 2 ^ n ≤ 16 ^ n := Nat.pow_le_pow_left (by omega) n
    have h3 : 16 ^ n ≤ 16 ^ (n + 1) := Nat.pow_le_pow_right (by omega) (by omega)
    omega
  unfold natToHexString
  rw [digitsBase_eq_digitsRec 16 (by omega) n n [] h16, List.append_nil]

theorem padStartStr_data (s : String) (len : Nat) (ch : Char) :
    (padStartStr s len ch).data = List.replicate (len - s.length) ch ++ s.data := by
  unfold padStartStr
  split
  · next h =>
    rw [Nat.sub_eq_zero_of_le h]
    simp
  · rfl

theorem padStartStr_length (s : String) (len : Nat) (ch : Char) (h : s.length ≤ len) :
    (padStartStr s len ch).length = len := by
  have hdata := padStartStr_data s len ch
  have : (padStartStr s len ch).length = (padStartStr s len ch).data.length := rfl
  rw [this, hdata]
  simp only [List.length_append, List.length_replicate]
  have : s.data.length = s.length := rfl
  omega

theorem natToString_length_le (n d : Nat) (hd : 1 ≤ d) (hn : n < 10 ^ d) :
    (natToString n).length ≤ d := by
  rw [natToString_eq]
  have : (String.mk ((digitsRec 10 n).map digitChar10)).length
      = ((digitsRec 10 n).map digitChar10).length := rfl
  rw [this, List.length_map]
  have := digitsRec_length_le 10 (by omega) (d - 1) n (by
    have : d - 1 + 1 = d := by omega
    rw [this]
    exact hn)
  omega

theorem digitChar10_isDigit : ∀ x, x < 10 → (digitChar10 x).isDigit = true := by decide

theorem natToString_chars_digits (n : Nat) :
    ∀ c ∈ (natToString n).data, c.isDigit = true := by
  rw [natToString_eq]
  intro c hc
  have : (String.mk ((digitsRec 10 n).map digitChar10)).data = (digitsRec 10 n).map digitChar10 :=
    rfl
  rw [this] at hc
  rcases List.mem_map.mp hc with ⟨x, hx, rfl⟩
  exact digitChar10_isDigit x (digitsRec_lt 10 (by omega) n x hx)

theorem natToString_ne_nil (n : Nat) : (natToString n).data ≠ [] := by
  rw [natToString_eq]
  have : (String.mk ((digitsRec 10 n).map digitChar10)).data = (digitsRec 10 n).map digitChar10 :=
    rfl
  rw [this]
  simp [digitsRec_ne_nil]

namespace Otp

theorem byteAt_past_end (digest : List Nat) (i : Nat) (h : digest.length ≤ i) :
    byteAt digest i = 0 := by
  unfold byteAt
  rw [List.getElem?_eq_none h]
  rfl

theorem byteAt_eq_dite (digest : List Nat) (i : Nat) :
    byteAt digest i = if h : i < digest.length then digest[i] else 0 := by
  unfold byteAt
  split
  · next h => rw [List.getElem?_eq_getElem h]; rfl
  · next h => rw [List.getElem?_eq_none (by omega)]; rfl

theorem DigestToToken_length (digest : List Nat) (digits : Nat) (hd : 1 ≤ digits) :
    (DigestToToken digest digits).length = digits := by
  simp only [DigestToToken]
  apply padStartStr_length
  apply natToString_length_le _ _ hd
  exact Nat.mod_lt _ (pow_pos (by omega) digits)

theorem DigestToToken_chars (digest : List Nat) (digits : Nat) :
    ∀ c ∈ (DigestToToken digest digits).data, c.isDigit = true := by
  simp only [DigestToToken]
  intro c hc
  rw [padStartStr_data] at hc
  rcases List.mem_append.mp hc with hc | hc
  · rw [List.eq_of_mem_replicate hc]
    decide
  · exact natToString_chars_digits _ c hc

theorem DigestToToken_ne_empty (digest : List Nat) (digits : Nat) (hd : 1 ≤ digits) :
    DigestToToken digest digits ≠ "" := by
  intro h
  have := DigestToToken_length digest digits hd
  rw [h] at this
  simp [String.length] at this
  omega

end Otp

namespace Hotp

theorem GetToken_length (hmac : HmacImpl) (options : OTP.GetTokenOptions)
    (hd : 1 ≤ options.digits.getD Otp.Digits) :
    (GetToken hmac options).length = options.digits.getD Otp.Digits := by
  unfold GetToken
  exact Otp.DigestToToken_length _ _ hd

theorem GetToken_ne_empty (hmac : HmacImpl) (options : OTP.GetTokenOptions)
    (hd : 1 ≤ options.digits.getD Otp.Digits) :
    GetToken hmac options ≠ "" := by
  unfold GetToken
  exact Otp.DigestToToken_ne_empty _ _ hd

theorem scanFirst_eq_some {p : Int → Bool} :
    ∀ (n : Nat) (i j : Int), scanFirst p i n = some j →
      p j = true ∧ i ≤ j ∧ j < i + n ∧ ∀ m, i ≤ m → m < j → p m = false := by
  intro n
  induction n with
  | zero => intro i j h; simp [scanFirst] at h
  | succ n ih =>
    intro i j h
    simp only [scanFirst] at h
    by_cases hp : p i
    · rw [if_pos hp] at h
      cases h
      refine ⟨hp, le_refl _, by omega, ?_⟩
      intro m h1 h2
      exact ((by omega : False)).elim
    · rw [if_neg hp] at h
      obtain ⟨hpj, hij, hjn, hfirst⟩ := ih (i + 1) j h
      refine ⟨hpj, by omega, by push_cast at hjn ⊢; omega, ?_⟩
      intro m h1 h2
      rcases eq_or_lt_of_le h1 with rfl | h1'
      · exact Bool.eq_false_iff.mpr hp
      · exact hfirst m (by omega) h2

theorem scanFirst_eq_none_iff {p : Int → Bool} :
    ∀ (n : Nat) (i : Int), scanFirst p i n = none ↔ ∀ j, i ≤ j → j < i + n → p j = false := by
  intro n
  induction n with
  | zero =>
    intro i
    simp only [scanFirst]
    constructor
    · intro _ j h1 h2
      exact ((by omega : False)).elim
    · intro _; trivial
  | succ n ih =>
    intro i
    simp only [scanFirst]
    by_cases hp : p i
    · rw [if_pos hp]
      constructor
      · intro h; cases h
      · intro h
        have := h i (le_refl _) (by push_cast; omega)
        rw [hp] at this
        cases this
    · rw [if_neg hp]
      rw [ih (i + 1)]
      constructor
      · intro h j h1 h2
        rcases eq_or_lt_of_le h1 with rfl | h1'
        · exact Bool.eq_false_iff.mpr hp
        · exact h j (by omega) (by push_cast at h2 ⊢; omega)
      · intro h j h1 h2
        exact h j (by omega) (by push_cast at h2 ⊢; omega)

theorem scanFirst_some_of {p : Int → Bool} :
    ∀ (n : Nat) (i j : Int), i ≤ j → j < i + n → p j = true →
      (∀ m, i ≤ m → m < j → p m = false) → scanFirst p i n = some j := by
  intro n
  induction n with
  | zero =>
    intro i j h1 h2
    exact ((by omega : False)).elim
  | succ n ih =>
    intro i j h1 h2 h3 h4
    simp only [scanFirst]
    rcases eq_or_lt_of_le h1 with rfl | h1'
    · rw [if_pos h3]
    · have hpi : p i = false := h4 i (le_refl _) h1'
      rw [if_neg (by simp [hpi])]
      exact ih (i + 1) j (by omega) (by push_cast at h2 ⊢; omega) h3
        (fun m hm1 hm2 => h4 m (by omega) hm2)

theorem scanFirst_exists_of {p : Int → Bool} (n : Nat) (i j : Int)
    (h1 : i ≤ j) (h2 : j < i + n) (h3 : p j = true) :
    ∃ j', scanFirst p i n = some j' ∧ i ≤ j' ∧ j' ≤ j ∧ p j' = true := by
  cases hscan : scanFirst p i n with
  | none =>
    have := (scanFirst_eq_none_iff n i).mp hscan j h1 h2
    rw [h3] at this
    cases this
  | some j' =>
    obtain ⟨hpj', hij', hjn', hfirst'⟩ := scanFirst_eq_some n i j' hscan
    refine ⟨j', rfl, hij', ?_, hpj'⟩
    by_contra hcon
    have : p j = false := hfirst' j h1 (by omega)
    rw [h3] at this
    cases this

end Hotp

namespace Hotp

theorem GetDelta_oneSided_eq (hmac : HmacImpl) (o : OTP.GetDeltaOptions)
    (h1 : o.token ≠ "") (h2 : o.token.length = o.digits.getD Otp.Digits) :
    GetDelta hmac o false =
      .ok ((scanFirst
          (fun i => GetToken hmac ⟨o.secret, some (o.digits.getD Otp.Digits), some i⟩ == o.token)
          (o.counter.getD 0) ((o.window.getD 0 + 1).toNat)).map
        (fun i => i - o.counter.getD 0)) := by
  simp only [GetDelta, Bool.not_false, if_true, if_neg h1]
  rw [if_neg (not_not_intro h2)]
  cases hscan : scanFirst
      (fun i => GetToken hmac ⟨o.secret, some (o.digits.getD Otp.Digits), some i⟩ == o.token)
      (o.counter.getD 0) ((o.window.getD 0 + 1).toNat) with
  | none => simp [hscan]
  | some i => simp [hscan]

theorem GetDelta_twoSided_eq (hmac : HmacImpl) (o : OTP.GetDeltaOptions)
    (h1 : o.token ≠ "") (h2 : o.token.length = o.digits.getD Otp.Digits) :
    GetDelta hmac o true =
      .ok ((scanFirst
          (fun i => GetToken hmac ⟨o.secret, some (o.digits.getD Otp.Digits), some i⟩ == o.token)
          (o.counter.getD 0 - o.window.getD 0) ((o.window.getD 0 * 2 + 1).toNat)).map
        (fun i => i - (o.counter.getD 0 - o.window.getD 0) - o.window.getD 0)) := by
  simp only [GetDelta, Bool.not_true, if_false, if_neg h1]
  rw [if_neg (not_not_intro h2)]
  cases hscan : scanFirst
      (fun i => GetToken hmac ⟨o.secret, some (o.digits.getD Otp.Digits), some i⟩ == o.token)
      (o.counter.getD 0 - o.window.getD 0) ((o.window.getD 0 * 2 + 1).toNat) with
  | none => simp [hscan]
  | some i => simp [hscan]

theorem GetDelta_length_mismatch_aux (hmac : HmacImpl) (o : OTP.GetDeltaOptions)
    (tw : Bool) (h1 : o.token ≠ "") (h2 : o.token.length ≠ o.digits.getD Otp.Digits) :
    GetDelta hmac o tw = .ok none := by
  simp only [GetDelta, if_neg h1]
  rw [if_pos h2]

end Hotp

namespace Hotp

/-- C2 (amended): with `twoSidedWindow = false`, `GetDelta` scans counters
`i` ascending over the inclusive range from `counter` to `counter + window`,
comparing the candidate token generated at each `i` to the supplied token,
and on the first match returns `i - counter`.  Consequently, with the
supplied token generated at counter `c + k`: for `0 ≤ k ≤ w` it returns a
delta `0 ≤ δ ≤ k` whose candidate token equals the supplied token — equal to
`k` as soon as no earlier counter of the window generates the same token —
and for `k > w` it returns the no-match sentinel provided no counter of the
window generates that token.  (The original unconditional "returns `k`" and
"returns null" fail when distinct counters in the window yield equal tokens;
see the counterexample.) -/
theorem getDelta_oneSided_spec (hmac : HmacImpl) (s : OTP.Secret) (dig : Option Nat)
    (D : Nat) (c w k : Int) (hD : D = dig.getD Otp.Digits)
    (hd : D = 6 ∨ D = 7 ∨ D = 8) (hw : 0 ≤ w) (hk : 0 ≤ k) :
    (∀ δ : Int,
        GetDelta hmac ⟨s, dig, some c, some w, candidate hmac s D (c + k)⟩ false = .ok (some δ) →
        0 ≤ δ ∧ δ ≤ w ∧ candidate hmac s D (c + δ) = candidate hmac s D (c + k) ∧
          ∀ j : Int, 0 ≤ j → j < δ → candidate hmac s D (c + j) ≠ candidate hmac s D (c + k)) ∧
    (k ≤ w → ∃ δ : Int,
        GetDelta hmac ⟨s, dig, some c, some w, candidate hmac s D (c + k)⟩ false = .ok (some δ) ∧
        0 ≤ δ ∧ δ ≤ k ∧ candidate hmac s D (c + δ) = candidate hmac s D (c + k)) ∧
    (k ≤ w →
      (∀ j : Int, 0 ≤ j → j < k → candidate hmac s D (c + j) ≠ candidate hmac s D (c + k)) →
      GetDelta hmac ⟨s, dig, some c, some w, candidate hmac s D (c + k)⟩ false = .ok (some k)) ∧
    (w < k →
      (∀ j : Int, 0 ≤ j → j ≤ w → candidate hmac s D (c + j) ≠ candidate hmac s D (c + k)) →
      GetDelta hmac ⟨s, dig, some c, some w, candidate hmac s D (c + k)⟩ false = .ok none) := by
  subst hD
  set D := dig.getD Otp.Digits with hDdef
  have hD1 : 1 ≤ D := by rcases hd with h | h | h <;> omega
  have hne : candidate hmac s D (c + k) ≠ "" :=
    GetToken_ne_empty hmac ⟨s, some D, some (c + k)⟩ (by simpa using hD1)
  have hlen : (candidate hmac s D (c + k)).length = D :=
    GetToken_length hmac ⟨s, some D, some (c + k)⟩ (by simpa using hD1)
  have hmain : GetDelta hmac ⟨s, dig, some c, some w, candidate hmac s D (c + k)⟩ false =
      .ok ((scanFirst (fun i => candidate hmac s D i == candidate hmac s D (c + k)) c
        ((w + 1).toNat)).map (fun i => i - c)) := by
    rw [GetDelta_oneSided_eq hmac ⟨s, dig, some c, some w, candidate hmac s D (c + k)⟩ hne hlen]
    rfl
  refine ⟨?_, ?_, ?_, ?_⟩
  · intro δ hδ
    rw [hmain] at hδ
    have hmap := Except.ok.inj hδ
    rcases Option.map_eq_some'.mp hmap with ⟨i, hscan, hiδ⟩
    obtain ⟨hpi, hci, hin, hfirst⟩ := scanFirst_eq_some _ _ _ hscan
    simp only [beq_iff_eq] at hpi
    have hcδ : c + δ = i := by omega
    refine ⟨by omega, by omega, by rw [hcδ]; exact hpi, ?_⟩
    intro j hj0 hjδ
    have hfj := hfirst (c + j) (by omega) (by omega)
    simpa only [beq_eq_false_iff_ne] using hfj
  · intro hkw
    obtain ⟨j', hscan, hcj', hj'k, hpj'⟩ :=
      @scanFirst_exists_of (fun i => candidate hmac s D i == candidate hmac s D (c + k))
        ((w + 1).toNat) c (c + k) (by omega) (by omega) (by simp)
    simp only [beq_iff_eq] at hpj'
    refine ⟨j' - c, ?_, by omega, by omega, ?_⟩
    · rw [hmain, hscan]; rfl
    · have hj : c + (j' - c) = j' := by omega
      rw [hj]; exact hpj'
  · intro hkw hnomatch
    have hscan : scanFirst (fun i => candidate hmac s D i == candidate hmac s D (c + k)) c
        ((w + 1).toNat) = some (c + k) := by
      apply scanFirst_some_of _ _ _ (by omega) (by omega) (by simp)
      intro m hm1 hm2
      have hmj := hnomatch (m - c) (by omega) (by omega)
      have hmc : c + (m - c) = m := by omega
      rw [hmc] at hmj
      simpa only [beq_eq_false_iff_ne] using hmj
    rw [hmain, hscan]
    simp only [Option.map_some']
    exact congrArg (fun z : Int => (Except.ok (some z) : Except OTP.OtpError (Option Int)))
      (by omega)
  · intro hwk hnomatch
    have hscan : scanFirst (fun i => candidate hmac s D i == candidate hmac s D (c + k)) c
        ((w + 1).toNat) = none := by
      rw [scanFirst_eq_none_iff]
      intro j hj1 hj2
      have hmj := hnomatch (j - c) (by omega) (by omega)
      have hjc : c + (j - c) = j := by omega
      rw [hjc] at hmj
      simpa only [beq_eq_false_iff_ne] using hmj
    rw [hmain, hscan]
    rfl

/-- C2 witness: the one-sided window specification applied at the concrete
secret `"00"`, counter 0, window 0 and offset 0. -/
theorem getDelta_oneSided_witness :
    (∀ δ : Int,
        GetDelta hmacNode ⟨⟨"00", none, none⟩, none, some 0, some 0,
            candidate hmacNode ⟨"00", none, none⟩ 6 (0 + 0)⟩ false = .ok (some δ) →
        0 ≤ δ ∧ δ ≤ 0 ∧
          candidate hmacNode ⟨"00", none, none⟩ 6 (0 + δ)
            = candidate hmacNode ⟨"00", none, none⟩ 6 (0 + 0) ∧
          ∀ j : Int, 0 ≤ j → j < δ →
            candidate hmacNode ⟨"00", none, none⟩ 6 (0 + j)
              ≠ candidate hmacNode ⟨"00", none, none⟩ 6 (0 + 0)) ∧
    ((0 : Int) ≤ 0 → ∃ δ : Int,
        GetDelta hmacNode ⟨⟨"00", none, none⟩, none, some 0, some 0,
            candidate hmacNode ⟨"00", none, none⟩ 6 (0 + 0)⟩ false = .ok (some δ) ∧
        0 ≤ δ ∧ δ ≤ 0 ∧
          candidate hmacNode ⟨"00", none, none⟩ 6 (0 + δ)
            = candidate hmacNode ⟨"00", none, none⟩ 6 (0 + 0)) ∧
    ((0 : Int) ≤ 0 →
      (∀ j : Int, 0 ≤ j → j < 0 →
        candidate hmacNode ⟨"00", none, none⟩ 6 (0 + j)
          ≠ candidate hmacNode ⟨"00", none, none⟩ 6 (0 + 0)) →
      GetDelta hmacNode ⟨⟨"00", none, none⟩, none, some 0, some 0,
          candidate hmacNode ⟨"00", none, none⟩ 6 (0 + 0)⟩ false = .ok (some 0)) ∧
    ((0 : Int) < 0 →
      (∀ j : Int, 0 ≤ j → j ≤ 0 →
        candidate hmacNode ⟨"00", none, none⟩ 6 (0 + j)
          ≠ candidate hmacNode ⟨"00", none, none⟩ 6 (0 + 0)) →
      GetDelta hmacNode ⟨⟨"00", none, none⟩, none, some 0, some 0,
          candidate hmacNode ⟨"00", none, none⟩ 6 (0 + 0)⟩ false = .ok none) :=
  getDelta_oneSided_spec hmacNode ⟨"00", none, none⟩ none 6 0 0 0 rfl (Or.inl rfl)
    (by decide) (by decide)

set_option maxRecDepth 100000 in
set_option maxHeartbeats 10000000 in
/-- C2 counterexample: under the real HMAC-SHA-1 engine the hex secret
`"00188689"` generates the same token `"071945"` at counters 0 and 1, so
with counter 0, window 1 and the supplied token generated at counter
`0 + 1` (premises `0 ≤ 1 ≤ 1` of the claim hold) the ascending first-match
scan returns delta 0, not the claimed `k = 1`. -/
theorem getDelta_oneSided_counterexample :
    (0 : Int) ≤ 1 ∧ (1 : Int) ≤ 1 ∧
    GetToken hmacNode ⟨⟨"00188689", none, none⟩, none, some 0⟩ = "071945" ∧
    GetToken hmacNode ⟨⟨"00188689", none, none⟩, none, some (0 + 1)⟩ = "071945" ∧
    GetDelta hmacNode ⟨⟨"00188689", none, none⟩, none, some 0, some 1,
        GetToken hmacNode ⟨⟨"00188689", none, none⟩, none, some (0 + 1)⟩⟩ false
      = .ok (some 0) ∧
    (0 : Int) ≠ 0 + 1 :=
  ⟨by decide, by decide, rfl, rfl, rfl, by decide⟩

end Hotp

namespace Hotp

/-- C3 (amended): with `twoSidedWindow = true`, `GetDelta` scans counters
ascending over the inclusive range from `counter - window` to
`counter + window` (spanning `2 * window` steps from `counter - window`) and
on the first match at counter `i` returns the re-centered delta
`(i - (counter - window)) - window = i - counter`, so 0 means a match
exactly at `counter`, negative values a match before it, positive after.
Consequently, with the supplied token generated at counter `c - k` and
`0 ≤ k ≤ w`, it returns a delta `-w ≤ δ ≤ -k` whose candidate token equals
the supplied one — exactly `-k` as soon as no earlier counter of the window
generates that token.  (The original unconditional "returns `-k`" fails when
distinct counters in the window yield equal tokens; see the
counterexample.) -/
theorem getDelta_twoSided_spec (hmac : HmacImpl) (s : OTP.Secret) (dig : Option Nat)
    (D : Nat) (c w k : Int) (hD : D = dig.getD Otp.Digits)
    (hd : D = 6 ∨ D = 7 ∨ D = 8) (hw : 0 ≤ w) (hk : 0 ≤ k) :
    (∀ δ : Int,
        GetDelta hmac ⟨s, dig, some c, some w, candidate hmac s D (c - k)⟩ true = .ok (some δ) →
        -w ≤ δ ∧ δ ≤ w ∧ candidate hmac s D (c + δ) = candidate hmac s D (c - k) ∧
          ∀ j : Int, -w ≤ j → j < δ → candidate hmac s D (c + j) ≠ candidate hmac s D (c - k)) ∧
    (k ≤ w → ∃ δ : Int,
        GetDelta hmac ⟨s, dig, some c, some w, candidate hmac s D (c - k)⟩ true = .ok (some δ) ∧
        -w ≤ δ ∧ δ ≤ -k ∧ candidate hmac s D (c + δ) = candidate hmac s D (c - k)) ∧
    (k ≤ w →
      (∀ j : Int, -w ≤ j → j < -k → candidate hmac s D (c + j) ≠ candidate hmac s D (c - k)) →
      GetDelta hmac ⟨s, dig, some c, some w, candidate hmac s D (c - k)⟩ true = .ok (some (-k))) := by
  subst hD
  set D := dig.getD Otp.Digits with hDdef
  have hD1 : 1 ≤ D := by rcases hd with h | h | h <;> omega
  have hne : candidate hmac s D (c - k) ≠ "" :=
    GetToken_ne_empty hmac ⟨s, some D, some (c - k)⟩ (by simpa using hD1)
  have hlen : (candidate hmac s D (c - k)).length = D :=
    GetToken_length hmac ⟨s, some D, some (c - k)⟩ (by simpa using hD1)
  have hmain : GetDelta hmac ⟨s, dig, some c, some w, candidate hmac s D (c - k)⟩ true =
      .ok ((scanFirst (fun i => candidate hmac s D i == candidate hmac s D (c - k)) (c - w)
        ((w * 2 + 1).toNat)).map (fun i => i - (c - w) - w)) := by
    rw [GetDelta_twoSided_eq hmac ⟨s, dig, some c, some w, candidate hmac s D (c - k)⟩ hne hlen]
    rfl
  refine ⟨?_, ?_, ?_⟩
  · intro δ hδ
    rw [hmain] at hδ
    have hmap := Except.ok.inj hδ
    rcases Option.map_eq_some'.mp hmap with ⟨i, hscan, hiδ⟩
    obtain ⟨hpi, hci, hin, hfirst⟩ := scanFirst_eq_some _ _ _ hscan
    simp only [beq_iff_eq] at hpi
    have hcδ : c + δ = i := by omega
    refine ⟨by omega, by omega, by rw [hcδ]; exact hpi, ?_⟩
    intro j hj0 hjδ
    have hfj := hfirst (c + j) (by omega) (by omega)
    simpa only [beq_eq_false_iff_ne] using hfj
  · intro hkw
    obtain ⟨j', hscan, hcj', hj'k, hpj'⟩ :=
      @scanFirst_exists_of (fun i => candidate hmac s D i == candidate hmac s D (c - k))
        ((w * 2 + 1).toNat) (c - w) (c - k) (by omega) (by omega) (by simp)
    simp only [beq_iff_eq] at hpj'
    refine ⟨j' - (c - w) - w, ?_, by omega, by omega, ?_⟩
    · rw [hmain, hscan]; rfl
    · have hj : c + (j' - (c - w) - w) = j' := by omega
      rw [hj]; exact hpj'
  · intro hkw hnomatch
    have hscan : scanFirst (fun i => candidate hmac s D i == candidate hmac s D (c - k)) (c - w)
        ((w * 2 + 1).toNat) = some (c - k) := by
      apply scanFirst_some_of _ _ _ (by omega) (by omega) (by simp)
      intro m hm1 hm2
      have hmj := hnomatch (m - c) (by omega) (by omega)
      have hmc : c + (m - c) = m := by omega
      rw [hmc] at hmj
      simpa only [beq_eq_false_iff_ne] using hmj
    rw [hmain, hscan]
    simp only [Option.map_some']
    exact congrArg (fun z : Int => (Except.ok (some z) : Except OTP.OtpError (Option Int)))
      (by omega)

/-- C3 witness: the two-sided window specification applied at the concrete
secret `"0c"`, counter 0, window 0 and offset 0. -/
theorem getDelta_twoSided_witness :
    (∀ δ : Int,
        GetDelta hmacNode ⟨⟨"0c", none, none⟩, none, some 0, some 0,
            candidate hmacNode ⟨"0c", none, none⟩ 6 (0 - 0)⟩ true = .ok (some δ) →
        -0 ≤ δ ∧ δ ≤ 0 ∧
          candidate hmacNode ⟨"0c", none, none⟩ 6 (0 + δ)
            = candidate hmacNode ⟨"0c", none, none⟩ 6 (0 - 0) ∧
          ∀ j : Int, -0 ≤ j → j < δ →
            candidate hmacNode ⟨"0c", none, none⟩ 6 (0 + j)
              ≠ candidate hmacNode ⟨"0c", none, none⟩ 6 (0 - 0)) ∧
    ((0 : Int) ≤ 0 → ∃ δ : Int,
        GetDelta hmacNode ⟨⟨"0c", none, none⟩, none, some 0, some 0,
            candidate hmacNode ⟨"0c", none, none⟩ 6 (0 - 0)⟩ true = .ok (some δ) ∧
        -0 ≤ δ ∧ δ ≤ -0 ∧
          candidate hmacNode ⟨"0c", none, none⟩ 6 (0 + δ)
            = candidate hmacNode ⟨"0c", none, none⟩ 6 (0 - 0)) ∧
    ((0 : Int) ≤ 0 →
      (∀ j : Int, -0 ≤ j → j < -0 →
        candidate hmacNode ⟨"0c", none, none⟩ 6 (0 + j)
          ≠ candidate hmacNode ⟨"0c", none, none⟩ 6 (0 - 0)) →
      GetDelta hmacNode ⟨⟨"0c", none, none⟩, none, some 0, some 0,
          candidate hmacNode ⟨"0c", none, none⟩ 6 (0 - 0)⟩ true = .ok (some (-0))) :=
  getDelta_twoSided_spec hmacNode ⟨"0c", none, none⟩ none 6 0 0 0 rfl (Or.inl rfl)
    (by decide) (by decide)

set_option maxRecDepth 100000 in
set_option maxHeartbeats 10000000 in
/-- C3 counterexample: under the real HMAC-SHA-1 engine the hex secret
`"00188689"` generates the same token `"071945"` at counters 0 and 1, so
with `twoSidedWindow = true`, counter 2, window 2 and the supplied token
generated at counter `2 - 1` (premises `0 ≤ 1 ≤ 2` of the claim hold) the
scan starting at `counter - window = 0` matches already at counter 0 and
returns `-2`, not the claimed `-k = -1`. -/
theorem getDelta_twoSided_counterexample :
    (0 : Int) ≤ 1 ∧ (1 : Int) ≤ 2 ∧
    GetToken hmacNode ⟨⟨"00188689", none, none⟩, none, some 0⟩ = "071945" ∧
    GetToken hmacNode ⟨⟨"00188689", none, none⟩, none, some (2 - 1)⟩ = "071945" ∧
    GetDelta hmacNode ⟨⟨"00188689", none, none⟩, none, some 2, some 2,
        GetToken hmacNode ⟨⟨"00188689", none, none⟩, none, some (2 - 1)⟩⟩ true
      = .ok (some (-2)) ∧
    (-2 : Int) ≠ -1 :=
  ⟨by decide, by decide, rfl, rfl, rfl, by decide⟩

/-- C5 (amended): for every non-empty supplied token whose length differs
from the effective digits value, `GetDelta` returns the no-match sentinel
immediately — independently of the HMAC engine, so no counter is searched
and no token generated — and `Verify` returns `false` without throwing.
(The original claim read "whenever the supplied token's length differs":
the empty token also has a differing length, yet the code throws
`MissingToken` first — see the counterexample.) -/
theorem getDelta_length_mismatch_spec (hmac : HmacImpl) (options : OTP.GetDeltaOptions)
    (twoSidedWindow : Bool) (h1 : options.token ≠ "")
    (h2 : options.token.length ≠ options.digits.getD Otp.Digits) :
    GetDelta hmac options twoSidedWindow = .ok none ∧
    (∀ hmac' : HmacImpl, GetDelta hmac' options twoSidedWindow = .ok none) ∧
    Verify hmac options = .ok false := by
  refine ⟨GetDelta_length_mismatch_aux hmac options twoSidedWindow h1 h2,
    fun hmac' => GetDelta_length_mismatch_aux hmac' options twoSidedWindow h1 h2, ?_⟩
  unfold Verify
  rw [GetDelta_length_mismatch_aux hmac options false h1 h2]
  rfl

/-- C5 witness: the length-mismatch specification applied to a 5-character
token against the default 6 digits. -/
theorem getDelta_length_mismatch_witness :
    GetDelta hmacNode ⟨⟨"0b", none, none⟩, none, none, none, "12345"⟩ false = .ok none ∧
    (∀ hmac' : HmacImpl,
      GetDelta hmac' ⟨⟨"0b", none, none⟩, none, none, none, "12345"⟩ false = .ok none) ∧
    Verify hmacNode ⟨⟨"0b", none, none⟩, none, none, none, "12345"⟩ = .ok false :=
  getDelta_length_mismatch_spec hmacNode ⟨⟨"0b", none, none⟩, none, none, none, "12345"⟩ false
    (by decide) (by decide)

/-- C5 counterexample: the empty token has length 0, which differs from the
effective 6 digits, yet `GetDelta` does not return the no-match sentinel
and `Verify` does not return `false`: both throw `MissingToken`. -/
theorem getDelta_length_mismatch_counterexample :
    ("" : String).length ≠ (none : Option Nat).getD Otp.Digits ∧
    GetDelta hmacNode ⟨⟨"00", none, none⟩, none, none, none, ""⟩ false = .error .missingToken ∧
    Verify hmacNode ⟨⟨"00", none, none⟩, none, none, none, ""⟩ ≠ .ok false :=
  ⟨by decide, rfl, fun h => Except.noConfusion h⟩

/-- C6: `GetDelta` called with an empty token throws the hard `MissingToken`
error — before any counter search or token generation, so the outcome is the
same for every HMAC engine — and with a non-empty token it never throws:
the result is always an `ok` value. -/
theorem getDelta_missingToken_spec (hmac : HmacImpl) (options : OTP.GetDeltaOptions)
    (twoSidedWindow : Bool) :
    (options.token = "" →
      ∀ hmac' : HmacImpl, GetDelta hmac' options twoSidedWindow = .error .missingToken) ∧
    (options.token ≠ "" →
      ∃ r : Option Int, GetDelta hmac options twoSidedWindow = .ok r) := by
  constructor
  · intro h hmac'
    simp [GetDelta, h]
  · intro h
    by_cases hlen : options.token.length = options.digits.getD Otp.Digits
    · cases twoSidedWindow with
      | false => rw [GetDelta_oneSided_eq hmac options h hlen]; exact ⟨_, rfl⟩
      | true => rw [GetDelta_twoSided_eq hmac options h hlen]; exact ⟨_, rfl⟩
    · exact ⟨none, GetDelta_length_mismatch_aux hmac options twoSidedWindow h hlen⟩

/-- C6 witness: the missing-token specification applied to an empty token. -/
theorem getDelta_missingToken_witness :
    GetDelta hmacNode ⟨⟨"0a", none, none⟩, none, none, none, ""⟩ false = .error .missingToken :=
  (getDelta_missingToken_spec hmacNode ⟨⟨"0a", none, none⟩, none, none, none, ""⟩ false).1
    rfl hmacNode

/-- C10: `GetDelta` does not modify the options record supplied by the
caller: in the state-passing form of the call the record afterwards — on a
delta, a no-match result or the empty-token error alike — has the same
`counter`, `window`, `digits` and `secret` as the record passed in, and the
result is that of `GetDelta` itself. -/
theorem getDelta_preservesOptions (hmac : HmacImpl) (options : OTP.GetDeltaOptions)
    (twoSidedWindow : Bool) :
    (GetDeltaSt hmac options twoSidedWindow).2.counter = options.counter ∧
    (GetDeltaSt hmac options twoSidedWindow).2.window = options.window ∧
    (GetDeltaSt hmac options twoSidedWindow).2.digits = options.digits ∧
    (GetDeltaSt hmac options twoSidedWindow).2.secret = options.secret ∧
    (GetDeltaSt hmac options twoSidedWindow).1 = GetDelta hmac options twoSidedWindow :=
  ⟨rfl, rfl, rfl, rfl, rfl⟩

end Hotp

theorem padStartStr_zero_token (d : Nat) :
    padStartStr "0" (d + 1) '0' = String.mk (List.replicate (d + 1) '0') := by
  unfold padStartStr
  split
  · next h =>
    have hd : d = 0 := by
      have : ("0" : String).length = 1 := rfl
      omega
    subst hd
    rfl
  · next h =>
    have h1 : d + 1 - ("0" : String).length = d := by
      have : ("0" : String).length = 1 := rfl
      omega
    rw [h1]
    have h2 : ("0" : String).data = ['0'] := rfl
    rw [h2, ← List.replicate_succ' d '0']

namespace Otp

/-- C1: `DigestToToken` computes the offset as the low nibble of the last
digest byte, forms the 31-bit value
`((digest[offset] & 0x7F) << 24) | (digest[offset+1] << 16) |
(digest[offset+2] << 8) | digest[offset+3]`, reduces it modulo
`10 ^ digits`, and returns that number as a decimal string left-padded with
'0' to exactly `digits` characters; hence for `digits ∈ {6,7,8}` both it
and `GetToken` return strings of exactly `digits` characters, all decimal
digits. -/
theorem digestToToken_spec (hmac : HmacImpl) (o : OTP.GetTokenOptions)
    (digest : List Nat) (digits : Nat)
    (hd : digits = 6 ∨ digits = 7 ∨ digits = 8)
    (ho : o.digits.getD Otp.Digits = digits) :
    DigestToToken digest digits =
      padStartStr (natToString
        ((((byteAt digest ((digest.getLast?.getD 0) &&& 0xf) &&& 0x7f) <<< 24) |||
          ((byteAt digest (((digest.getLast?.getD 0) &&& 0xf) + 1) &&& 0xff) <<< 16) |||
          ((byteAt digest (((digest.getLast?.getD 0) &&& 0xf) + 2) &&& 0xff) <<< 8) |||
          (byteAt digest (((digest.getLast?.getD 0) &&& 0xf) + 3) &&& 0xff)) % 10 ^ digits))
        digits '0' ∧
    (DigestToToken digest digits).length = digits ∧
    (∀ c ∈ (DigestToToken digest digits).data, c.isDigit = true) ∧
    (Hotp.GetToken hmac o).length = digits ∧
    (∀ c ∈ (Hotp.GetToken hmac o).data, c.isDigit = true) := by
  have hd1 : 1 ≤ digits := by rcases hd with h | h | h <;> omega
  have hGT : Hotp.GetToken hmac o
      = DigestToToken (Hotp.Digest hmac o) (o.digits.getD Otp.Digits) := rfl
  refine ⟨rfl, DigestToToken_length digest digits hd1, DigestToToken_chars digest digits, ?_, ?_⟩
  · rw [hGT, ho]
    exact DigestToToken_length _ _ hd1
  · rw [hGT]
    exact DigestToToken_chars _ _

/-- C1 witness: the truncation specification applied to a concrete
three-byte digest and 6 digits. -/
theorem digestToToken_witness :
    DigestToToken [1, 2, 3] 6 =
      padStartStr (natToString
        ((((byteAt [1, 2, 3] (([1, 2, 3].getLast?.getD 0) &&& 0xf) &&& 0x7f) <<< 24) |||
          ((byteAt [1, 2, 3] ((([1, 2, 3].getLast?.getD 0) &&& 0xf) + 1) &&& 0xff) <<< 16) |||
          ((byteAt [1, 2, 3] ((([1, 2, 3].getLast?.getD 0) &&& 0xf) + 2) &&& 0xff) <<< 8) |||
          (byteAt [1, 2, 3] ((([1, 2, 3].getLast?.getD 0) &&& 0xf) + 3) &&& 0xff)) % 10 ^ 6))
        6 '0' ∧
    (DigestToToken [1, 2, 3] 6).length = 6 ∧
    (∀ c ∈ (DigestToToken [1, 2, 3] 6).data, c.isDigit = true) ∧
    (Hotp.GetToken hmacNode ⟨⟨"0d", none, none⟩, none, none⟩).length = 6 ∧
    (∀ c ∈ (Hotp.GetToken hmacNode ⟨⟨"0d", none, none⟩, none, none⟩).data, c.isDigit = true) :=
  digestToToken_spec hmacNode ⟨⟨"0d", none, none⟩, none, none⟩ [1, 2, 3] 6
    (Or.inl rfl) rfl

/-- C9: `DigestToToken` returns normally on every digest byte sequence,
including one empty or shorter than `offset + 4` bytes: a byte read is the
in-range byte when the index is within the digest and zero otherwise (also
for the last-byte read computing the offset, which on the empty digest
yields offset 0), the returned token still has exactly `digits` characters,
and the empty digest yields the all-zero token. -/
theorem digestToToken_short_spec (digest : List Nat) (digits : Nat) (h1 : 1 ≤ digits) :
    (∀ i, byteAt digest i = if h : i < digest.length then digest[i] else 0) ∧
    (∀ i, digest.length ≤ i → byteAt digest i = 0) ∧
    (DigestToToken digest digits).length = digits ∧
    DigestToToken [] digits = String.mk (List.replicate digits '0') := by
  refine ⟨fun i => byteAt_eq_dite digest i, fun i hi => byteAt_past_end digest i hi,
    DigestToToken_length digest digits h1, ?_⟩
  have hz : DigestToToken [] digits = padStartStr (natToString 0) digits '0' := by
    simp [DigestToToken, byteAt]
  obtain ⟨d, rfl⟩ : ∃ d, digits = d + 1 := ⟨digits - 1, by omega⟩
  rw [hz]
  have h0 : natToString 0 = "0" := rfl
  rw [h0, padStartStr_zero_token]

/-- C9 witness: the short-digest specification applied to a two-byte digest
and 6 digits. -/
theorem digestToToken_short_witness :
    (∀ i, byteAt [7, 9] i = if h : i < [7, 9].length then [7, 9][i] else 0) ∧
    (∀ i, [7, 9].length ≤ i → byteAt [7, 9] i = 0) ∧
    (DigestToToken [7, 9] 6).length = 6 ∧
    DigestToToken [] 6 = String.mk (List.replicate 6 '0') :=
  digestToToken_short_spec [7, 9] 6 (by decide)

end Otp

theorem hexFixed_length : ∀ (w n : Nat), (hexFixed w n).length = w
  | 0, _ => rfl
  | w + 1, n => by
    simp only [hexFixed, List.length_append, List.length_singleton, hexFixed_length w (n / 16)]

theorem hexFixed_lt : ∀ (w n : Nat), ∀ x ∈ hexFixed w n, x < 16
  | 0, _ => by intro x hx; cases hx
  | w + 1, n => by
    intro x hx
    simp only [hexFixed, List.mem_append, List.mem_singleton] at hx
    rcases hx with hx | hx
    · exact hexFixed_lt w (n / 16) x hx
    · subst hx
      exact Nat.mod_lt _ (by omega)

theorem hexFixed_zero : ∀ (w : Nat), hexFixed w 0 = List.replicate w 0
  | 0 => rfl
  | w + 1 => by
    simp only [hexFixed, Nat.zero_div, Nat.zero_mod, hexFixed_zero w]
    rw [← List.replicate_succ' w 0]

theorem pad_digitsRec_eq_hexFixed :
    ∀ (w n : Nat), 1 ≤ w → n < 16 ^ w →
      List.replicate (w - (digitsRec 16 n).length) 0 ++ digitsRec 16 n = hexFixed w n := by
  intro w
  induction w with
  | zero => intro n h; omega
  | succ w ih =>
    intro n _ hn
    by_cases hw : w = 0
    · subst hw
      rw [pow_one] at hn
      have hrec : digitsRec 16 n = [n] := by
        rw [digitsRec]
        simp [hn]
      rw [hrec]
      simp only [List.length_singleton, Nat.sub_self]
      have : hexFixed 1 n = [n % 16] := by simp [hexFixed]
      rw [this, Nat.mod_eq_of_lt hn]
      rfl
    · by_cases h16 : n < 16
      · have hrec : digitsRec 16 n = [n] := by
          rw [digitsRec]
          simp [h16]
        rw [hrec]
        simp only [List.length_singleton]
        have hfix : hexFixed (w + 1) n = hexFixed w 0 ++ [n] := by
          simp only [hexFixed]
          rw [Nat.div_eq_of_lt h16, Nat.mod_eq_of_lt h16]
        rw [hfix, hexFixed_zero w]
        have : w + 1 - 1 = w := by omega
        rw [this]
      · have hrec : digitsRec 16 n = digitsRec 16 (n / 16) ++ [n % 16] := by
          rw [digitsRec]
          simp [h16]
        have hdiv : n / 16 < 16 ^ w := by
          rw [Nat.div_lt_iff_lt_mul (by omega : 0 < 16)]
          calc n < 16 ^ (w + 1) := hn
          _ = 16 ^ w * 16 := by rw [pow_succ]
        have ihw := ih (n / 16) (by omega) hdiv
        rw [hrec]
        simp only [List.length_append, List.length_singleton]
        have hL : w + 1 - ((digitsRec 16 (n / 16)).length + 1)
            = w - (digitsRec 16 (n / 16)).length := by omega
        rw [hL]
        have : hexFixed (w + 1) n = hexFixed w (n / 16) ++ [n % 16] := rfl
        rw [this, ← ihw, List.append_assoc]

theorem hexPairs_append :
    ∀ (xs : List Nat) (a b : Nat), xs.length % 2 = 0 →
      hexPairsToBytes (xs ++ [a, b]) = hexPairsToBytes xs ++ [16 * a + b]
  | [], a, b, _ => rfl
  | [x], a, b, h => by simp at h
  | x :: y :: rest, a, b, h => by
    have hr : rest.length % 2 = 0 := by
      simp only [List.length_cons] at h
      omega
    simp only [List.cons_append, hexPairsToBytes, List.append_eq]
    rw [hexPairs_append rest a b hr]

theorem hexPairs_hexFixed : ∀ (k n : Nat), hexPairsToBytes (hexFixed (2 * k) n) = beBytes k n := by
  intro k
  induction k with
  | zero => intro n; rfl
  | succ k ih =>
    intro n
    have h2 : 2 * (k + 1) = 2 * k + 1 + 1 := by omega
    rw [h2]
    have hfix : hexFixed (2 * k + 1 + 1) n
        = hexFixed (2 * k) (n / 16 / 16) ++ [n / 16 % 16] ++ [n % 16] := rfl
    rw [hfix, List.append_assoc]
    simp only [List.singleton_append]
    have hdd : n / 16 / 16 = n / 256 := by
      rw [Nat.div_div_eq_div_mul]
    rw [hdd]
    rw [hexPairs_append (hexFixed (2 * k) (n / 256)) (n / 16 % 16) (n % 16)
      (by rw [hexFixed_length]; omega)]
    rw [ih (n / 256)]
    have hbyte : 16 * (n / 16 % 16) + n % 16 = n % 256 := by omega
    rw [hbyte]
    rfl

theorem hexVal_hexDigitChar : ∀ d, d < 16 → hexVal (hexDigitChar d) = some d := by decide

theorem hexDecodeList_map :
    ∀ (ds : List Nat), (∀ d ∈ ds, d < 16) →
      hexDecodeList (ds.map hexDigitChar) = hexPairsToBytes ds
  | [], _ => rfl
  | [d], _ => rfl
  | d1 :: d2 :: rest, h => by
    have e1 := hexVal_hexDigitChar d1 (h d1 (by simp))
    have e2 := hexVal_hexDigitChar d2 (h d2 (by simp))
    simp only [List.map_cons, hexDecodeList, e1, e2, hexPairsToBytes]
    rw [hexDecodeList_map rest (fun d hd => h d (by simp [hd]))]

theorem beBytes_length : ∀ (k n : Nat), (beBytes k n).length = k
  | 0, _ => rfl
  | k + 1, n => by
    simp only [beBytes, List.length_append, List.length_singleton, beBytes_length k (n / 256)]

theorem beBytes_eight (n : Nat) :
    beBytes 8 n = [n / 2 ^ 56 % 256, n / 2 ^ 48 % 256, n / 2 ^ 40 % 256, n / 2 ^ 32 % 256,
      n / 2 ^ 24 % 256, n / 2 ^ 16 % 256, n / 2 ^ 8 % 256, n % 256] := by
  norm_num [beBytes, Nat.div_div_eq_div_mul]

namespace Hotp

/-- C4: for every counter `c` representable as a 64-bit unsigned integer,
`Counter c` is the big-endian hexadecimal representation of `c` zero-padded
on the left to exactly 16 hex digits (the digit list is `hexFixed 16 c`, the
16 base-16 digits of `c` most significant first), and the message
`createDigest` feeds to the HMAC engine is exactly the 8 bytes obtained by
hex-decoding that 16-digit string — the 8-byte big-endian encoding of `c`. -/
theorem counter_bigEndian (hmac : HmacImpl) (alg : OTP.Hash) (key : String) (c : Nat)
    (hc : c < 2 ^ 64) :
    (Counter (c : Int)).length = 16 ∧
    (Counter (c : Int)).data = (hexFixed 16 c).map hexDigitChar ∧
    hexDecodeStr (Counter (c : Int)) = beBytes 8 c ∧
    (beBytes 8 c).length = 8 ∧
    beBytes 8 c = [c / 2 ^ 56 % 256, c / 2 ^ 48 % 256, c / 2 ^ 40 % 256, c / 2 ^ 32 % 256,
      c / 2 ^ 24 % 256, c / 2 ^ 16 % 256, c / 2 ^ 8 % 256, c % 256] ∧
    Otp.createDigest hmac alg key (Counter (c : Int))
      = hmac alg (beBytes 8 c) (hexDecodeStr key) := by
  have hc16 : c < 16 ^ 16 := by
    have : (16 : Nat) ^ 16 = 2 ^ 64 := by norm_num
    omega
  have hneg : ¬ ((c : Int) < 0) := by
    simp
  have hCdef : Counter (c : Int) = padStartStr (natToHexString c) 16 '0' := by
    unfold Counter
    rw [if_neg hneg]
    simp
  have hdig : (natToHexString c).data = (digitsRec 16 c).map hexDigitChar := by
    rw [natToHexString_eq]
  have hlenle : (natToHexString c).length ≤ 16 := by
    have h1 : (natToHexString c).length = (digitsRec 16 c).length := by
      show (natToHexString c).data.length = _
      rw [hdig, List.length_map]
    rw [h1]
    exact digitsRec_length_le 16 (by omega) 15 c hc16
  have hdata : (Counter (c : Int)).data = (hexFixed 16 c).map hexDigitChar := by
    rw [hCdef, padStartStr_data, hdig]
    have hlen : (natToHexString c).length = (digitsRec 16 c).length := by
      show (natToHexString c).data.length = _
      rw [hdig, List.length_map]
    rw [hlen]
    have hch : ('0' : Char) = hexDigitChar 0 := rfl
    rw [hch, ← List.map_replicate, ← List.map_append]
    rw [pad_digitsRec_eq_hexFixed 16 c (by omega) hc16]
  have hdec : hexDecodeStr (Counter (c : Int)) = beBytes 8 c := by
    show hexDecodeList (Counter (c : Int)).data = _
    rw [hdata, hexDecodeList_map (hexFixed 16 c) (hexFixed_lt 16 c)]
    have h16 : 16 = 2 * 8 := rfl
    rw [h16, hexPairs_hexFixed 8 c]
  refine ⟨?_, hdata, hdec, beBytes_length 8 c, beBytes_eight c, ?_⟩
  · rw [hCdef]
    exact padStartStr_length _ _ _ hlenle
  · unfold Otp.createDigest
    rw [hdec]

/-- C4 witness: the counter-formatting specification at counter 10, which
renders as the 16-digit string of the spec's example. -/
theorem counter_bigEndian_witness :
    10 < 2 ^ 64 ∧
    Counter ((10 : Nat) : Int) = "000000000000000a" ∧
    ((Counter ((10 : Nat) : Int)).length = 16 ∧
    (Counter ((10 : Nat) : Int)).data = (hexFixed 16 10).map hexDigitChar ∧
    hexDecodeStr (Counter ((10 : Nat) : Int)) = beBytes 8 10 ∧
    (beBytes 8 10).length = 8 ∧
    beBytes 8 10 = [10 / 2 ^ 56 % 256, 10 / 2 ^ 48 % 256, 10 / 2 ^ 40 % 256, 10 / 2 ^ 32 % 256,
      10 / 2 ^ 24 % 256, 10 / 2 ^ 16 % 256, 10 / 2 ^ 8 % 256, 10 % 256] ∧
    Otp.createDigest hmacNode OTP.Hash.sha1 "ab" (Counter ((10 : Nat) : Int))
      = hmacNode OTP.Hash.sha1 (beBytes 8 10) (hexDecodeStr "ab")) :=
  ⟨by decide, by decide, counter_bigEndian hmacNode OTP.Hash.sha1 "ab" 10 (by decide)⟩

end Hotp

theorem hexDecodeList_stop :
    ∀ (ds : List Nat) (c : Char) (cs : List Char), (∀ d ∈ ds, d < 16) →
      ds.length % 2 = 0 → hexVal c = none →
      hexDecodeList (ds.map hexDigitChar ++ c :: cs) = hexPairsToBytes ds
  | [], c, cs, _, _, h3 => by
    cases cs with
    | nil => rfl
    | cons c2 cs2 =>
      simp only [List.map_nil, List.nil_append, hexDecodeList, h3]
      rfl
  | [d], _, _, _, h2, _ => by simp at h2
  | d1 :: d2 :: rest, c, cs, h1, h2, h3 => by
    have e1 := hexVal_hexDigitChar d1 (h1 d1 (by simp))
    have e2 := hexVal_hexDigitChar d2 (h1 d2 (by simp))
    simp only [List.map_cons, List.cons_append, hexDecodeList, e1, e2, hexPairsToBytes,
      List.append_eq]
    rw [hexDecodeList_stop rest c cs (fun d hd => h1 d (by simp [hd]))
      (by simp only [List.length_cons] at h2; omega) h3]

theorem hexDecodeList_odd :
    ∀ (ds : List Nat) (d' : Nat), (∀ d ∈ ds, d < 16) → ds.length % 2 = 0 →
      hexDecodeList (ds.map hexDigitChar ++ [hexDigitChar d']) = hexPairsToBytes ds
  | [], _, _, _ => rfl
  | [d], _, _, h2 => by simp at h2
  | d1 :: d2 :: rest, d', h1, h2 => by
    have e1 := hexVal_hexDigitChar d1 (h1 d1 (by simp))
    have e2 := hexVal_hexDigitChar d2 (h1 d2 (by simp))
    simp only [List.map_cons, List.cons_append, hexDecodeList, e1, e2, hexPairsToBytes,
      List.append_eq]
    rw [hexDecodeList_odd rest d' (fun d hd => h1 d (by simp [hd]))
      (by simp only [List.length_cons] at h2; omega)]

namespace Otp

/-- C8 (amended): a secret that is malformed hex does not fail and is not
decoded with an error: Node's lenient hex decoding silently truncates — an
invalid character stops the parse at the bytes decoded so far, and an
odd-length hex string drops the trailing nibble — and `HmacKey` derives its
key from the partially decoded bytes, from which a token is then produced.
(The claimed `InvalidEncoding` hard failure does not exist in this code
path; the behaviour of an invalid base32 character is that of the external
Base32 decoder.  See the counterexample.) -/
theorem hmacKey_lenientHex_spec (ds : List Nat) (c : Char) (cs : List Char)
    (h1 : ∀ d ∈ ds, d < 16) (h2 : ds.length % 2 = 0) (h3 : hexVal c = none) :
    hexDecodeStr (String.mk (ds.map hexDigitChar ++ c :: cs)) = hexPairsToBytes ds ∧
    (∀ d', d' < 16 →
      hexDecodeStr (String.mk (ds.map hexDigitChar ++ [hexDigitChar d'])) = hexPairsToBytes ds) ∧
    HmacKey (String.mk (ds.map hexDigitChar ++ c :: cs)) OTP.Encoding.hex
      = hexEncodeStr (hexPairsToBytes ds) ∧
    (∀ d', d' < 16 →
      HmacKey (String.mk (ds.map hexDigitChar ++ [hexDigitChar d'])) OTP.Encoding.hex
        = hexEncodeStr (hexPairsToBytes ds)) := by
  have hstop : hexDecodeStr (String.mk (ds.map hexDigitChar ++ c :: cs)) = hexPairsToBytes ds :=
    hexDecodeList_stop ds c cs h1 h2 h3
  have hodd : ∀ d', d' < 16 →
      hexDecodeStr (String.mk (ds.map hexDigitChar ++ [hexDigitChar d'])) = hexPairsToBytes ds :=
    fun d' _ => hexDecodeList_odd ds d' h1 h2
  refine ⟨hstop, hodd, ?_, ?_⟩
  · show hexEncodeStr (hexDecodeStr (String.mk (ds.map hexDigitChar ++ c :: cs)))
      = hexEncodeStr (hexPairsToBytes ds)
    rw [hstop]
  · intro d' hd'
    show hexEncodeStr (hexDecodeStr (String.mk (ds.map hexDigitChar ++ [hexDigitChar d'])))
      = hexEncodeStr (hexPairsToBytes ds)
    rw [hodd d' hd']

/-- C8 witness: the lenient-hex specification applied to the digit list
`[10, 11]` followed by the invalid character `'z'`. -/
theorem hmacKey_lenientHex_witness :
    hexDecodeStr (String.mk ([10, 11].map hexDigitChar ++ 'z' :: [])) = hexPairsToBytes [10, 11] ∧
    (∀ d', d' < 16 →
      hexDecodeStr (String.mk ([10, 11].map hexDigitChar ++ [hexDigitChar d']))
        = hexPairsToBytes [10, 11]) ∧
    HmacKey (String.mk ([10, 11].map hexDigitChar ++ 'z' :: [])) OTP.Encoding.hex
      = hexEncodeStr (hexPairsToBytes [10, 11]) ∧
    (∀ d', d' < 16 →
      HmacKey (String.mk ([10, 11].map hexDigitChar ++ [hexDigitChar d'])) OTP.Encoding.hex
        = hexEncodeStr (hexPairsToBytes [10, 11])) :=
  hmacKey_lenientHex_spec [10, 11] 'z' [] (by decide) (by decide) (by decide)

set_option maxRecDepth 100000 in
set_option maxHeartbeats 2000000 in
/-- C8 counterexample: the odd-length hex secret `"abc"` is not rejected —
no `InvalidEncoding` failure exists — decoding truncates to the single byte
`0xAB`, `HmacKey` returns `"ab"`, and a full 6-digit token is produced from
the partially decoded key. -/
theorem hmacKey_lenientHex_counterexample :
    hexDecodeStr "abc" = [171] ∧
    HmacKey "abc" OTP.Encoding.hex = "ab" ∧
    Hotp.GetToken hmacNode ⟨⟨"abc", some OTP.Encoding.hex, none⟩, none, none⟩ = "260174" :=
  ⟨rfl, rfl, rfl⟩

end Otp

theorem hexVal_lt {c : Char} {v : Nat} (h : hexVal c = some v) : v < 16 := by
  simp only [hexVal] at h
  split_ifs at h with h1 h2 h3
  · cases h; omega
  · cases h; omega
  · cases h; omega

theorem b64Val_lt {c : Char} {v : Nat} (h : b64Val c = some v) : v < 64 := by
  simp only [b64Val] at h
  split_ifs at h with h1 h2 h3 h4 h5
  · cases h; omega
  · cases h; omega
  · cases h; omega
  · cases h; omega
  · cases h; omega

theorem b32Val_lt {c : Char} {v : Nat} (h : b32Val c = some v) : v < 32 := by
  simp only [b32Val] at h
  split_ifs at h with h1 h2
  · cases h; omega
  · cases h; omega

theorem b64Val_b64Char : ∀ v, v < 64 → b64Val (b64Char v) = some v := by decide

theorem b32Val_b32Char : ∀ v, v < 32 → b32Val (b32Char v) = some v := by decide

theorem b32Val_pad : b32Val '=' = none := by decide

theorem hexDecodeList_lt : ∀ (cs : List Char), ∀ x ∈ hexDecodeList cs, x < 256
  | [] => by intro x hx; simp [hexDecodeList] at hx
  | [c] => by intro x hx; simp [hexDecodeList] at hx
  | c1 :: c2 :: rest => by
    intro x hx
    cases e1 : hexVal c1 with
    | none => simp [hexDecodeList, e1] at hx
    | some v1 =>
      cases e2 : hexVal c2 with
      | none => simp [hexDecodeList, e1, e2] at hx
      | some v2 =>
        simp only [hexDecodeList, e1, e2, List.mem_cons] at hx
        rcases hx with rfl | hx
        · have hv1 := hexVal_lt e1
          have hv2 := hexVal_lt e2
          omega
        · exact hexDecodeList_lt rest x hx

theorem asciiDecodeStr_lt (s : String) : ∀ x ∈ asciiDecodeStr s, x < 256 := by
  intro x hx
  rcases List.mem_map.mp hx with ⟨c, _, rfl⟩
  exact Nat.mod_lt _ (by omega)

theorem b64DecodeVals_lt : ∀ (vs : List Nat), (∀ v ∈ vs, v < 64) → ∀ x ∈ b64DecodeVals vs, x < 256
  | [], _ => by intro x hx; simp [b64DecodeVals] at hx
  | [v1], _ => by intro x hx; simp [b64DecodeVals] at hx
  | [v1, v2], h => by
    intro x hx
    have h1 := h v1 (by simp)
    have h2 := h v2 (by simp)
    simp only [b64DecodeVals, List.mem_cons, List.not_mem_nil, or_false] at hx
    subst hx
    omega
  | [v1, v2, v3], h => by
    intro x hx
    have h1 := h v1 (by simp)
    have h2 := h v2 (by simp)
    have h3 := h v3 (by simp)
    simp only [b64DecodeVals, List.mem_cons, List.not_mem_nil, or_false] at hx
    rcases hx with rfl | rfl <;> omega
  | v1 :: v2 :: v3 :: v4 :: rest, h => by
    intro x hx
    have h1 := h v1 (by simp)
    have h2 := h v2 (by simp)
    have h3 := h v3 (by simp)
    have h4 := h v4 (by simp)
    simp only [b64DecodeVals, List.mem_cons] at hx
    rcases hx with rfl | rfl | rfl | hx
    · omega
    · omega
    · omega
    · exact b64DecodeVals_lt rest (fun v hv => h v (by simp [hv])) x hx

theorem b32DecodeVals_lt : ∀ (vs : List Nat), (∀ v ∈ vs, v < 32) → ∀ x ∈ b32DecodeVals vs, x < 256
  | [], _ => by intro x hx; simp [b32DecodeVals] at hx
  | [v0], _ => by intro x hx; simp [b32DecodeVals] at hx
  | [v0, v1], h => by
    intro x hx
    have h0 := h v0 (by simp)
    have h1 := h v1 (by simp)
    simp only [b32DecodeVals, List.mem_cons, List.not_mem_nil, or_false] at hx
    subst hx
    omega
  | [v0, v1, v2], _ => by intro x hx; simp [b32DecodeVals] at hx
  | [v0, v1, v2, v3], h => by
    intro x hx
    have h0 := h v0 (by simp)
    have h1 := h v1 (by simp)
    have h2 := h v2 (by simp)
    have h3 := h v3 (by simp)
    simp only [b32DecodeVals, List.mem_cons, List.not_mem_nil, or_false] at hx
    rcases hx with rfl | rfl <;> omega
  | [v0, v1, v2, v3, v4], h => by
    intro x hx
    have h0 := h v0 (by simp)
    have h1 := h v1 (by simp)
    have h2 := h v2 (by simp)
    have h3 := h v3 (by simp)
    have h4 := h v4 (by simp)
    simp only [b32DecodeVals, List.mem_cons, List.not_mem_nil, or_false] at hx
    rcases hx with rfl | rfl | rfl <;> omega
  | [v0, v1, v2, v3, v4, v5], _ => by intro x hx; simp [b32DecodeVals] at hx
  | [v0, v1, v2, v3, v4, v5, v6], h => by
    intro x hx
    have h0 := h v0 (by simp)
    have h1 := h v1 (by simp)
    have h2 := h v2 (by simp)
    have h3 := h v3 (by simp)
    have h4 := h v4 (by simp)
    have h5 := h v5 (by simp)
    have h6 := h v6 (by simp)
    simp only [b32DecodeVals, List.mem_cons, List.not_mem_nil, or_false] at hx
    rcases hx with rfl | rfl | rfl | rfl <;> omega
  | v0 :: v1 :: v2 :: v3 :: v4 :: v5 :: v6 :: v7 :: rest, h => by
    intro x hx
    have h0 := h v0 (by simp)
    have h1 := h v1 (by simp)
    have h2 := h v2 (by simp)
    have h3 := h v3 (by simp)
    have h4 := h v4 (by simp)
    have h5 := h v5 (by simp)
    have h6 := h v6 (by simp)
    have h7 := h v7 (by simp)
    simp only [b32DecodeVals, List.mem_cons] at hx
    rcases hx with rfl | rfl | rfl | rfl | rfl | hx
    · omega
    · omega
    · omega
    · omega
    · omega
    · exact b32DecodeVals_lt rest (fun v hv => h v (by simp [hv])) x hx

theorem decodeSecret_lt (s : String) (e : OTP.Encoding) : ∀ x ∈ Otp.decodeSecret s e, x < 256 := by
  cases e with
  | ascii =>
    intro x hx
    exact asciiDecodeStr_lt s x hx
  | hex =>
    intro x hx
    exact hexDecodeList_lt s.data x hx
  | base64url =>
    intro x hx
    refine b64DecodeVals_lt (s.data.filterMap b64Val) ?_ x hx
    intro v hv
    rcases List.mem_filterMap.mp hv with ⟨c, _, hc⟩
    exact b64Val_lt hc
  | base32 =>
    intro x hx
    refine b32DecodeVals_lt (s.data.filterMap b32Val) ?_ x hx
    intro v hv
    rcases List.mem_filterMap.mp hv with ⟨c, _, hc⟩
    exact b32Val_lt hc

theorem hexDecode_hexEncode : ∀ (bs : List Nat), (∀ b ∈ bs, b < 256) →
    hexDecodeList (hexEncodeList bs) = bs
  | [], _ => rfl
  | b :: rest, h => by
    have hb : b < 256 := h b (by simp)
    have e1 := hexVal_hexDigitChar (b / 16) (by omega)
    have e2 := hexVal_hexDigitChar (b % 16) (by omega)
    simp only [hexEncodeList, hexDecodeList, e1, e2]
    rw [hexDecode_hexEncode rest (fun x hx => h x (by simp [hx]))]
    simp only [List.cons.injEq, and_true]
    omega

theorem asciiChar_toNat : ∀ m, m < 128 → (Char.ofNat m).toNat % 256 = m := by decide

theorem asciiDecode_asciiEncode : ∀ (bs : List Nat),
    asciiDecodeStr (asciiEncodeStr bs) = bs.map (fun b => b % 128)
  | [] => rfl
  | b :: rest => by
    have hstep : asciiDecodeStr (asciiEncodeStr (b :: rest))
        = ((Char.ofNat (b % 128)).toNat % 256) :: asciiDecodeStr (asciiEncodeStr rest) := rfl
    rw [hstep, asciiDecode_asciiEncode rest]
    simp only [List.map_cons, List.cons.injEq, and_true]
    exact asciiChar_toNat (b % 128) (Nat.mod_lt _ (by omega))

theorem b64Decode_b64Encode : ∀ (bs : List Nat), (∀ b ∈ bs, b < 256) →
    b64DecodeVals ((b64EncodeBytes bs).filterMap b64Val) = bs
  | [], _ => rfl
  | [a], h => by
    have ha : a < 256 := h a (by simp)
    have e1 := b64Val_b64Char (a / 4) (by omega)
    have e2 := b64Val_b64Char (a % 4 * 16) (by omega)
    simp only [b64EncodeBytes, List.filterMap_cons, e1, e2, List.filterMap_nil, b64DecodeVals]
    simp only [List.cons.injEq, and_true]
    omega
  | [a, b], h => by
    have ha : a < 256 := h a (by simp)
    have hb : b < 256 := h b (by simp)
    have e1 := b64Val_b64Char (a / 4) (by omega)
    have e2 := b64Val_b64Char (a % 4 * 16 + b / 16) (by omega)
    have e3 := b64Val_b64Char (b % 16 * 4) (by omega)
    simp only [b64EncodeBytes, List.filterMap_cons, e1, e2, e3, List.filterMap_nil, b64DecodeVals]
    simp only [List.cons.injEq, and_true]
    constructor
    · omega
    · omega
  | a :: b :: c :: rest, h => by
    have ha : a < 256 := h a (by simp)
    have hb : b < 256 := h b (by simp)
    have hc : c < 256 := h c (by simp)
    have e1 := b64Val_b64Char (a / 4) (by omega)
    have e2 := b64Val_b64Char (a % 4 * 16 + b / 16) (by omega)
    have e3 := b64Val_b64Char (b % 16 * 4 + c / 64) (by omega)
    have e4 := b64Val_b64Char (c % 64) (by omega)
    simp only [b64EncodeBytes, List.filterMap_cons, e1, e2, e3, e4, b64DecodeVals]
    rw [b64Decode_b64Encode rest (fun x hx => h x (by simp [hx]))]
    simp only [List.cons.injEq, and_true]
    refine ⟨by omega, by omega, by omega⟩

theorem b32Decode_b32Encode : ∀ (bs : List Nat), (∀ b ∈ bs, b < 256) →
    b32DecodeVals ((base32EncodeChars bs).filterMap b32Val) = bs
  | [], _ => rfl
  | [b0], h => by
    have h0 : b0 < 256 := h b0 (by simp)
    have e0 := b32Val_b32Char (b0 / 8) (by omega)
    have e1 := b32Val_b32Char (b0 % 8 * 4) (by omega)
    simp only [base32EncodeChars, List.filterMap_cons, e0, e1, b32Val_pad,
      List.filterMap_nil, b32DecodeVals]
    simp only [List.cons.injEq, and_true]
    omega
  | [b0, b1], h => by
    have h0 : b0 < 256 := h b0 (by simp)
    have h1 : b1 < 256 := h b1 (by simp)
    have e0 := b32Val_b32Char (b0 / 8) (by omega)
    have e1 := b32Val_b32Char (b0 % 8 * 4 + b1 / 64) (by omega)
    have e2 := b32Val_b32Char (b1 / 2 % 32) (by omega)
    have e3 := b32Val_b32Char (b1 % 2 * 16) (by omega)
    simp only [base32EncodeChars, List.filterMap_cons, e0, e1, e2, e3, b32Val_pad,
      List.filterMap_nil, b32DecodeVals]
    simp only [List.cons.injEq, and_true]
    constructor
    · omega
    · omega
  | [b0, b1, b2], h => by
    have h0 : b0 < 256 := h b0 (by simp)
    have h1 : b1 < 256 := h b1 (by simp)
    have h2 : b2 < 256 := h b2 (by simp)
    have e0 := b32Val_b32Char (b0 / 8) (by omega)
    have e1 := b32Val_b32Char (b0 % 8 * 4 + b1 / 64) (by omega)
    have e2 := b32Val_b32Char (b1 / 2 % 32) (by omega)
    have e3 := b32Val_b32Char (b1 % 2 * 16 + b2 / 16) (by omega)
    have e4 := b32Val_b32Char (b2 % 16 * 2) (by omega)
    simp only [base32EncodeChars, List.filterMap_cons, e0, e1, e2, e3, e4, b32Val_pad,
      List.filterMap_nil, b32DecodeVals]
    simp only [List.cons.injEq, and_true]
    refine ⟨by omega, by omega, by omega⟩
  | [b0, b1, b2, b3], h => by
    have h0 : b0 < 256 := h b0 (by simp)
    have h1 : b1 < 256 := h b1 (by simp)
    have h2 : b2 < 256 := h b2 (by simp)
    have h3 : b3 < 256 := h b3 (by simp)
    have e0 := b32Val_b32Char (b0 / 8) (by omega)
    have e1 := b32Val_b32Char (b0 % 8 * 4 + b1 / 64) (by omega)
    have e2 := b32Val_b32Char (b1 / 2 % 32) (by omega)
    have e3 := b32Val_b32Char (b1 % 2 * 16 + b2 / 16) (by omega)
    have e4 := b32Val_b32Char (b2 % 16 * 2 + b3 / 128) (by omega)
    have e5 := b32Val_b32Char (b3 / 4 % 32) (by omega)
    have e6 := b32Val_b32Char (b3 % 4 * 8) (by omega)
    simp only [base32EncodeChars, List.filterMap_cons, e0, e1, e2, e3, e4, e5, e6, b32Val_pad,
      List.filterMap_nil, b32DecodeVals]
    simp only [List.cons.injEq, and_true]
    refine ⟨by omega, by omega, by omega, by omega⟩
  | b0 :: b1 :: b2 :: b3 :: b4 :: rest, h => by
    have h0 : b0 < 256 := h b0 (by simp)
    have h1 : b1 < 256 := h b1 (by simp)
    have h2 : b2 < 256 := h b2 (by simp)
    have h3 : b3 < 256 := h b3 (by simp)
    have h4 : b4 < 256 := h b4 (by simp)
    have e0 := b32Val_b32Char (b0 / 8) (by omega)
    have e1 := b32Val_b32Char (b0 % 8 * 4 + b1 / 64) (by omega)
    have e2 := b32Val_b32Char (b1 / 2 % 32) (by omega)
    have e3 := b32Val_b32Char (b1 % 2 * 16 + b2 / 16) (by omega)
    have e4 := b32Val_b32Char (b2 % 16 * 2 + b3 / 128) (by omega)
    have e5 := b32Val_b32Char (b3 / 4 % 32) (by omega)
    have e6 := b32Val_b32Char (b3 % 4 * 8 + b4 / 32) (by omega)
    have e7 := b32Val_b32Char (b4 % 32) (by omega)
    simp only [base32EncodeChars, List.filterMap_cons, e0, e1, e2, e3, e4, e5, e6, e7,
      b32DecodeVals]
    rw [b32Decode_b32Encode rest (fun x hx => h x (by simp [hx]))]
    simp only [List.cons.injEq, and_true]
    refine ⟨by omega, by omega, by omega, by omega, by omega⟩

namespace Otp

/-- C7 (amended): decoding then re-encoding reproduces the underlying bytes
exactly for the hex, base64url and base32 encodings, while the ascii
encoding masks each byte to its low 7 bits (Node's ascii codec drops the
high bit, as the repository's own test vectors record); accordingly the
hex, base64url and base32 strings returned by `GetSecrets` each decode — 
under their own encoding — to the same byte sequence as the input secret
decoded under its declared encoding, and the ascii string decodes to that
byte sequence exactly when the declared encoding is ascii, and to its
7-bit masking otherwise.  (The original claim over all four encodings fails
on bytes with the high bit set; see the counterexample.) -/
theorem getSecrets_roundTrip :
    (∀ bs : List Nat, (∀ b ∈ bs, b < 256) →
      hexDecodeStr (hexEncodeStr bs) = bs ∧
      base64urlDecodeStr (base64urlEncodeStr bs) = bs ∧
      base32DecodeStr (base32EncodeStr bs) = bs ∧
      asciiDecodeStr (asciiEncodeStr bs) = bs.map (fun b => b % 128)) ∧
    (∀ options : OTP.GetSecretsOptions,
      decodeSecret (GetSecrets options).hex OTP.Encoding.hex
          = decodeSecret options.secret.key (options.secret.encoding.getD Otp.Encoding) ∧
      decodeSecret (GetSecrets options).base64url OTP.Encoding.base64url
          = decodeSecret options.secret.key (options.secret.encoding.getD Otp.Encoding) ∧
      decodeSecret (GetSecrets options).base32 OTP.Encoding.base32
          = decodeSecret options.secret.key (options.secret.encoding.getD Otp.Encoding) ∧
      decodeSecret (GetSecrets options).ascii OTP.Encoding.ascii
          = (if options.secret.encoding.getD Otp.Encoding = OTP.Encoding.ascii
             then decodeSecret options.secret.key (options.secret.encoding.getD Otp.Encoding)
             else (decodeSecret options.secret.key
                (options.secret.encoding.getD Otp.Encoding)).map (fun b => b % 128))) := by
  constructor
  · intro bs h
    exact ⟨hexDecode_hexEncode bs h, b64Decode_b64Encode bs h, b32Decode_b32Encode bs h,
      asciiDecode_asciiEncode bs⟩
  · intro options
    refine ⟨?_, ?_, ?_, ?_⟩
    · have hbs := decodeSecret_lt options.secret.key (options.secret.encoding.getD Otp.Encoding)
      show decodeSecret
          (secretsEntry options.secret.key (options.secret.encoding.getD Otp.Encoding)
            OTP.Encoding.hex) OTP.Encoding.hex
        = decodeSecret options.secret.key (options.secret.encoding.getD Otp.Encoding)
      cases he : options.secret.encoding.getD Otp.Encoding with
      | ascii => rw [he] at hbs; exact hexDecode_hexEncode _ hbs
      | hex => rfl
      | base64url => rw [he] at hbs; exact hexDecode_hexEncode _ hbs
      | base32 => rw [he] at hbs; exact hexDecode_hexEncode _ hbs
    · have hbs := decodeSecret_lt options.secret.key (options.secret.encoding.getD Otp.Encoding)
      show decodeSecret
          (secretsEntry options.secret.key (options.secret.encoding.getD Otp.Encoding)
            OTP.Encoding.base64url) OTP.Encoding.base64url
        = decodeSecret options.secret.key (options.secret.encoding.getD Otp.Encoding)
      cases he : options.secret.encoding.getD Otp.Encoding with
      | ascii => rw [he] at hbs; exact b64Decode_b64Encode _ hbs
      | hex => rw [he] at hbs; exact b64Decode_b64Encode _ hbs
      | base64url => rfl
      | base32 => rw [he] at hbs; exact b64Decode_b64Encode _ hbs
    · have hbs := decodeSecret_lt options.secret.key (options.secret.encoding.getD Otp.Encoding)
      show decodeSecret
          (secretsEntry options.secret.key (options.secret.encoding.getD Otp.Encoding)
            OTP.Encoding.base32) OTP.Encoding.base32
        = decodeSecret options.secret.key (options.secret.encoding.getD Otp.Encoding)
      cases he : options.secret.encoding.getD Otp.Encoding with
      | ascii => rw [he] at hbs; exact b32Decode_b32Encode _ hbs
      | hex => rw [he] at hbs; exact b32Decode_b32Encode _ hbs
      | base64url => rw [he] at hbs; exact b32Decode_b32Encode _ hbs
      | base32 => rfl
    · show decodeSecret
          (secretsEntry options.secret.key (options.secret.encoding.getD Otp.Encoding)
            OTP.Encoding.ascii) OTP.Encoding.ascii
        = (if options.secret.encoding.getD Otp.Encoding = OTP.Encoding.ascii
           then decodeSecret options.secret.key (options.secret.encoding.getD Otp.Encoding)
           else (decodeSecret options.secret.key
              (options.secret.encoding.getD Otp.Encoding)).map (fun b => b % 128))
      cases he : options.secret.encoding.getD Otp.Encoding with
      | ascii => rfl
      | hex => exact asciiDecode_asciiEncode _
      | base64url => exact asciiDecode_asciiEncode _
      | base32 => exact asciiDecode_asciiEncode _

/-- C7 witness: the round-trip specification applied to the one-byte
sequence `[1]`. -/
theorem getSecrets_roundTrip_witness :
    hexDecodeStr (hexEncodeStr [1]) = [1] ∧
    base64urlDecodeStr (base64urlEncodeStr [1]) = [1] ∧
    base32DecodeStr (base32EncodeStr [1]) = [1] ∧
    asciiDecodeStr (asciiEncodeStr [1]) = [1].map (fun b => b % 128) :=
  getSecrets_roundTrip.1 [1] (by decide)

/-- C7 counterexample: the ascii encoding does not round-trip bytes with the
high bit set — byte 0xDC re-encodes to the character `0x5C` — and the ascii
entry of `GetSecrets` for the hex secret `"dc"` decodes to `[0x5C]`, not to
the secret's underlying byte `[0xDC]`. -/
theorem getSecrets_roundTrip_counterexample :
    asciiDecodeStr (asciiEncodeStr [220]) = [92] ∧
    decodeSecret (GetSecrets ⟨⟨"dc", some OTP.Encoding.hex, none⟩⟩).ascii OTP.Encoding.ascii
      = [92] ∧
    decodeSecret "dc" OTP.Encoding.hex = [220] ∧
    (92 : Nat) ≠ 220 :=
  ⟨rfl, rfl, rfl, by decide⟩

end Otp
